import Mathlib

/-!
Verification development for the GML tokenizer/parser of GM8Emulator.

The parser is translated from `src/gml/ast.rs` (`AST::new`, `AST::read_line`,
`AST::read_binary_tree`, `AST::read_btree_expression`, `AST::read_function_call`,
`AST::get_op_precedence`, and the `fmt::Display` impl for `Expr`).

The token model and the lexer are not present in the repository sources
(`src/gml/token.rs` and `src/gml/lexer.rs` are referenced but absent), so they
are modelled from the specification, as documented on each such definition.

Modelling conventions:
* The `Peekable<Lexer>` token stream is a `List Token`; `peek` is the head,
  `next` pops the head.  (`Peekable` guarantees `peek`/`next` agree, so the
  `unreachable!()` at the end of the operator match in `read_binary_tree`
  cannot arise in this model.)
* `f64` real literals are represented by their decimal lexeme string: no claim
  depends on floating-point arithmetic, and the `Display` rendering of the
  simple literals appearing here coincides with the lexeme.
* Rust panics (`unreachable!`) are modelled as distinguished `Except.error`
  results, so that a theorem can show they are never produced.
* Errors carry the human-readable message only; the line counter threaded by
  the Rust code affects messages alone, never control flow, so it is dropped.
* Recursion in the mutual parser functions is made structural with a fuel
  parameter; `parse` supplies fuel ample for its input, and every
  fuel-polymorphic theorem quantifies over the fuel.
-/

namespace GM8

/-- Keyword tokens, as enumerated in the token table of the spec (`then` is
separator-class per the design notes of the spec and the usage in `ast.rs`). -/
inductive Keyword
  | kVar | kDo | kUntil | kIf | kElse | kFor | kRepeat | kSwitch
  | kCase | kDefault | kWith | kWhile | kBreak | kContinue | kExit | kReturn
  deriving DecidableEq, Repr

/-- Operators, exactly the variants used by `ast.rs` (`Operator` enum). -/
inductive Operator
  | add | subtract | multiply | divide | intDivide
  | binaryAnd | binaryOr | binaryXor
  | assign | not | lessThan | greaterThan
  | assignAdd | assignSubtract | assignMultiply | assignDivide
  | assignBinaryAnd | assignBinaryOr | assignBinaryXor
  | equal | notEqual | lessThanOrEqual | greaterThanOrEqual
  | modulo | and | or | xor
  | binaryShiftLeft | binaryShiftRight
  | complement | deref | index
  deriving DecidableEq, Repr

/-- Separators, exactly the variants used by `ast.rs` (`Separator` enum),
with `thenKw` for `Separator::Then`. -/
inductive Separator
  | parenLeft | parenRight | braceLeft | braceRight | bracketLeft | bracketRight
  | comma | semicolon | colon | period | thenKw
  deriving DecidableEq, Repr

/-- Modelled from the spec: the token kinds produced by the lexer
(`src/gml/token.rs` is not in the repository).  A real literal is carried as
its decimal lexeme (see the module comment). -/
inductive Token
  | keyword (k : Keyword)
  | operator (op : Operator)
  | separator (sep : Separator)
  | identifier (name : String)
  | real (lexeme : String)
  | string (content : String)
  deriving DecidableEq, Repr

/-- The AST node type, translated from the `Expr` enum of `ast.rs` with the
boxed payload structs flattened into constructor fields. -/
inductive Expr
  | literalIdentifier (name : String)
  | literalReal (lexeme : String)
  | literalString (content : String)
  | unary (op : Operator) (child : Expr)
  | binary (op : Operator) (left : Expr) (right : Expr)
  | doUntil (cond : Expr) (body : Expr)
  | forE (start : Expr) (cond : Expr) (step : Expr) (body : Expr)
  | function (name : String) (params : List Expr)
  | group (children : List Expr)
  | ifE (cond : Expr) (body : Expr) (elseBody : Option Expr)
  | repeatE (count : Expr) (body : Expr)
  | switch (input : Expr) (body : Expr)
  | varE (vars : List String)
  | withE (target : Expr) (body : Expr)
  | whileE (cond : Expr) (body : Expr)
  | caseE (e : Expr)
  | defaultE
  | continueE
  | breakE
  | exitE
  | returnE (e : Expr)
  | nop
  deriving Repr

/-- Test for `Expr::Nop`, used where the Rust code compares against it. -/
def Expr.isNop : Expr → Bool
  | .nop => true
  | _ => false

/-- Translated from `AST::get_op_precedence` (`ast.rs` lines 826-861);
`u8` precedences become `Nat`. -/
def getOpPrecedence : Operator → Option Nat
  | .add => some 4
  | .subtract => some 4
  | .multiply => some 5
  | .divide => some 5
  | .intDivide => some 5
  | .binaryAnd => some 2
  | .binaryOr => some 2
  | .binaryXor => some 2
  | .assign => none
  | .not => none
  | .lessThan => some 1
  | .greaterThan => some 1
  | .assignAdd => none
  | .assignSubtract => none
  | .assignMultiply => none
  | .assignDivide => none
  | .assignBinaryAnd => none
  | .assignBinaryOr => none
  | .assignBinaryXor => none
  | .equal => some 1
  | .notEqual => some 1
  | .lessThanOrEqual => some 1
  | .greaterThanOrEqual => some 1
  | .modulo => some 5
  | .and => some 0
  | .or => some 0
  | .xor => some 0
  | .binaryShiftLeft => some 3
  | .binaryShiftRight => some 3
  | .complement => none
  | .deref => none
  | .index => none

/-- Translated from the identifier-collecting loop of the `Keyword::Var`
branch of `AST::read_line` (`ast.rs` lines 266-281): after the first
identifier, repeatedly consume a comma and one further identifier, stopping
(without consuming) at the first token that breaks the pattern; a trailing
comma is consumed. -/
def readVarsTail : List Token → List String × List Token
  | Token.separator .comma :: rest =>
    match rest with
    | Token.identifier id :: rest2 =>
      let (vs, r) := readVarsTail rest2
      (id :: vs, r)
    | _ => ([], rest)
  | ts => ([], ts)

/-- Translated from the semicolon-skipping loop in the `Keyword::For` branch
of `AST::read_line` (`ast.rs` lines 338-340). -/
def dropSemicolons : List Token → List Token
  | Token.separator .semicolon :: rest => dropSemicolons rest
  | ts => ts

/-- Translated from the optional `then` consumption in the `Keyword::If`
branch of `AST::read_line` (`ast.rs` lines 306-308). -/
def consumeThen : List Token → List Token
  | Token.separator .thenKw :: rest => rest
  | ts => ts

/-- Translated from the optional single-semicolon consumption in the
`Keyword::For` branch of `AST::read_line` (`ast.rs` lines 326-328, 333-335). -/
def consumeSemicolon : List Token → List Token
  | Token.separator .semicolon :: rest => rest
  | ts => ts

mutual

/-- Translated from `AST::read_line` (`ast.rs` lines 249-513).
Returns `none` at end of input, `some` statement otherwise. -/
def readLine : Nat → List Token → Except String (Option Expr × List Token)
  | 0, _ => .error "out of fuel"
  | fuel+1, ts =>
    match ts with
    | [] => .ok (none, [])
    | Token.keyword .kVar :: ts1 =>
      match ts1 with
      | Token.identifier id :: rest =>
        .ok (some (.varE (id :: (readVarsTail rest).1)), (readVarsTail rest).2)
      | _ => .ok (some (.varE []), ts1)
    | Token.keyword .kDo :: ts1 =>
      match readLine fuel ts1 with
      | .error e => .error e
      | .ok (none, _) => .error "Unexpected EOF after keyword"
      | .ok (some body, ts2) =>
        match ts2 with
        | Token.keyword .kUntil :: ts3 =>
          match readBinaryTree fuel ts3 none false 0 with
          | .error e => .error e
          | .ok (_, some _, _) => .error "unreachable: read_binary_tree returned an operator"
          | .ok (cond, none, ts4) => .ok (some (.doUntil cond body), ts4)
        | _ => .error "Unexpected token; keyword until expected"
    | Token.keyword .kIf :: ts1 =>
      match readBinaryTree fuel ts1 none false 0 with
      | .error e => .error e
      | .ok (_, some _, _) => .error "unreachable: read_binary_tree returned an operator"
      | .ok (cond, none, ts2) =>
        match readLine fuel (consumeThen ts2) with
        | .error e => .error e
        | .ok (none, _) => .error "Unexpected EOF after keyword"
        | .ok (some body, ts3) =>
          match ts3 with
          | Token.keyword .kElse :: ts3a =>
            match readLine fuel ts3a with
            | .error e => .error e
            | .ok (none, _) => .error "Unexpected EOF after keyword"
            | .ok (some elseBody, ts4) => .ok (some (.ifE cond body (some elseBody)), ts4)
          | _ => .ok (some (.ifE cond body none), ts3)
    | Token.keyword .kFor :: ts1 =>
      match ts1 with
      | Token.separator .parenLeft :: ts2 =>
        match readLine fuel ts2 with
        | .error e => .error e
        | .ok (none, _) => .error "Unexpected EOF during for params"
        | .ok (some start, ts3) =>
          match readBinaryTree fuel (consumeSemicolon ts3) none false 0 with
          | .error e => .error e
          | .ok (_, some _, _) => .error "unreachable: read_binary_tree returned an operator"
          | .ok (cond, none, ts4) =>
            match readLine fuel (consumeSemicolon ts4) with
            | .error e => .error e
            | .ok (none, _) => .error "Unexpected EOF during for params"
            | .ok (some step, ts5) =>
              match dropSemicolons ts5 with
              | Token.separator .parenRight :: ts6 =>
                match readLine fuel ts6 with
                | .error e => .error e
                | .ok (none, _) => .error "Unexpected EOF after for params"
                | .ok (some body, ts7) => .ok (some (.forE start cond step body), ts7)
              | _ => .error "Unexpected token; parenRight expected"
      | _ => .error "Unexpected token; parenLeft expected"
    | Token.keyword .kRepeat :: ts1 =>
      match readBinaryTree fuel ts1 none false 0 with
      | .error e => .error e
      | .ok (_, some _, _) => .error "unreachable: read_binary_tree returned an operator"
      | .ok (count, none, ts2) =>
        match readLine fuel ts2 with
        | .error e => .error e
        | .ok (none, _) => .error "Unexpected EOF after condition"
        | .ok (some body, ts3) => .ok (some (.repeatE count body), ts3)
    | Token.keyword .kSwitch :: ts1 =>
      match readBinaryTree fuel ts1 none false 0 with
      | .error e => .error e
      | .ok (_, some _, _) => .error "unreachable: read_binary_tree returned an operator"
      | .ok (input, none, ts2) =>
        match readLine fuel ts2 with
        | .error e => .error e
        | .ok (none, _) => .error "Unexpected EOF after condition"
        | .ok (some body, ts3) => .ok (some (.switch input body), ts3)
    | Token.keyword .kWith :: ts1 =>
      match readBinaryTree fuel ts1 none false 0 with
      | .error e => .error e
      | .ok (_, some _, _) => .error "unreachable: read_binary_tree returned an operator"
      | .ok (target, none, ts2) =>
        match readLine fuel ts2 with
        | .error e => .error e
        | .ok (none, _) => .error "Unexpected EOF after condition"
        | .ok (some body, ts3) => .ok (some (.withE target body), ts3)
    | Token.keyword .kWhile :: ts1 =>
      match readBinaryTree fuel ts1 none false 0 with
      | .error e => .error e
      | .ok (_, some _, _) => .error "unreachable: read_binary_tree returned an operator"
      | .ok (cond, none, ts2) =>
        match readLine fuel ts2 with
        | .error e => .error e
        | .ok (none, _) => .error "Unexpected EOF after condition"
        | .ok (some body, ts3) => .ok (some (.whileE cond body), ts3)
    | Token.keyword .kCase :: ts1 =>
      match readBinaryTree fuel ts1 none false 0 with
      | .error e => .error e
      | .ok (_, some _, _) => .error "unreachable: read_binary_tree returned an operator"
      | .ok (e, none, ts2) =>
        match ts2 with
        | Token.separator .colon :: ts3 => .ok (some (.caseE e), ts3)
        | _ => .error "Unexpected token; colon expected"
    | Token.keyword .kDefault :: ts1 =>
      match ts1 with
      | Token.separator .colon :: ts2 => .ok (some .defaultE, ts2)
      | _ => .error "Unexpected token; colon expected"
    | Token.keyword .kBreak :: ts1 => .ok (some .breakE, ts1)
    | Token.keyword .kContinue :: ts1 => .ok (some .continueE, ts1)
    | Token.keyword .kExit :: ts1 => .ok (some .exitE, ts1)
    | Token.keyword .kReturn :: ts1 =>
      match readBinaryTree fuel ts1 none false 0 with
      | .error e => .error e
      | .ok (_, some _, _) => .error "unreachable: read_binary_tree returned an operator"
      | .ok (val, none, ts2) => .ok (some (.returnE val), ts2)
    | Token.keyword _ :: _ => .error "Invalid Keyword at beginning of expression"
    | Token.identifier id :: ts1 =>
      match ts1 with
      | [] => .error "Stray identifier at EOF"
      | Token.separator .parenLeft :: _ =>
        match readFunctionCall fuel ts1 id with
        | .error e => .error e
        | .ok (e, ts2) => .ok (some e, ts2)
      | _ =>
        match readBinaryTree fuel ts1 (some (Token.identifier id)) true 0 with
        | .error e => .error e
        | .ok (_, some _, _) => .error "Stray operator in expression"
        | .ok (e, none, ts2) => .ok (some e, ts2)
    | Token.separator .braceLeft :: ts1 =>
      match readGroup fuel ts1 [] with
      | .error e => .error e
      | .ok (g, ts2) => .ok (some g, ts2)
    | Token.separator .parenLeft :: ts1 =>
      match readBinaryTree fuel ts1 (some (Token.separator .parenLeft)) true 0 with
      | .error e => .error e
      | .ok (_, some _, _) => .error "Stray operator in expression"
      | .ok (e, none, ts2) => .ok (some e, ts2)
    | Token.separator .semicolon :: ts1 => .ok (some .nop, ts1)
    | Token.separator _ :: _ => .error "Invalid Separator at beginning of expression"
    | _ :: _ => .error "Invalid token at beginning of expression"

/-- Translated from the `Separator::BraceLeft` loop of `AST::read_line`
(`ast.rs` lines 461-477): collect statements, discarding `Nop`s, until the
closing brace. -/
def readGroup : Nat → List Token → List Expr → Except String (Expr × List Token)
  | 0, _, _ => .error "out of fuel"
  | fuel+1, ts, acc =>
    match ts with
    | Token.separator .braceRight :: ts1 => .ok (.group acc, ts1)
    | _ =>
      match readLine fuel ts with
      | .error e => .error e
      | .ok (none, _) => .error "Unclosed brace at EOF"
      | .ok (some e, ts1) =>
        if e.isNop then readGroup fuel ts1 acc else readGroup fuel ts1 (acc ++ [e])

/-- Translated from `AST::read_binary_tree` (`ast.rs` lines 515-644): parse a
primary, then if an operator follows, consume it (reinterpreting `=` as `==`
when no assignment is expected) and enter the operator loop. -/
def readBinaryTree : Nat → List Token → Option Token → Bool → Nat →
    Except String (Expr × Option Operator × List Token)
  | 0, _, _, _, _ => .error "out of fuel"
  | fuel+1, ts, firstToken, expectAssignment, lowestPrec =>
    match readBtreeExpression fuel ts firstToken with
    | .error e => .error e
    | .ok (lhs, ts1) =>
      match ts1 with
      | Token.operator op0 :: ts2 =>
        let op := if op0 = .assign && !expectAssignment then .equal else op0
        binaryLoop fuel ts2 lhs op expectAssignment lowestPrec
      | _ =>
        if expectAssignment then
          .error "Invalid token when expecting assignment operator"
        else
          .ok (lhs, none, ts1)

/-- Translated from the `loop` of `AST::read_binary_tree` (`ast.rs` lines
538-628), with the current `lhs` and pending `op` as parameters. -/
def binaryLoop : Nat → List Token → Expr → Operator → Bool → Nat →
    Except String (Expr × Option Operator × List Token)
  | 0, _, _, _, _, _ => .error "out of fuel"
  | fuel+1, ts, lhs, op, expectAssignment, lowestPrec =>
    match getOpPrecedence op with
    | some precedence =>
      if expectAssignment then
        .error "Invalid operator found, expected assignment"
      else if precedence < lowestPrec then
        .ok (lhs, some op, ts)
      else
        match readBinaryTree fuel ts none false (precedence + 1) with
        | .error e => .error e
        | .ok (rhs, some nextOp, ts1) =>
          match getOpPrecedence nextOp with
          | some nextPrec =>
            if nextPrec < lowestPrec then
              .ok (.binary op lhs rhs, some nextOp, ts1)
            else
              binaryLoop fuel ts1 (.binary op lhs rhs) nextOp expectAssignment lowestPrec
          | none => .error "unreachable: returned operator has no precedence"
        | .ok (rhs, none, ts1) => .ok (.binary op lhs rhs, none, ts1)
    | none =>
      if !expectAssignment || op = .not || op = .complement then
        .error "Invalid operator found, expected evaluable"
      else
        match readBinaryTree fuel ts none false lowestPrec with
        | .error e => .error e
        | .ok (_, some _, _) => .error "Stray operator in expression"
        | .ok (rhs, none, ts1) => .ok (.binary op lhs rhs, none, ts1)

/-- Translated from `AST::read_btree_expression` (`ast.rs` lines 646-778):
resolve the first token (already-consumed, or popped from the stream), then
parse the atom headed by it via `readBtreeAtom`. -/
def readBtreeExpression : Nat → List Token → Option Token →
    Except String (Expr × List Token)
  | 0, _, _ => .error "out of fuel"
  | fuel+1, ts, firstToken =>
    match firstToken with
    | some t => readBtreeAtom fuel ts t
    | none =>
      match ts with
      | t :: r => readBtreeAtom fuel r t
      | [] => .error "Found EOF unexpectedly while reading binary tree"

/-- The body of `AST::read_btree_expression` after its first token has been
resolved: the match building the atom (`ast.rs` lines 652-704) followed by
the postfix loop. -/
def readBtreeAtom : Nat → List Token → Token → Except String (Expr × List Token)
  | 0, _, _ => .error "out of fuel"
  | fuel+1, ts1, t =>
      match t with
      | Token.separator .parenLeft =>
        match readBinaryTree fuel ts1 none false 0 with
        | .error e => .error e
        | .ok (e, trailing, ts2) =>
          match ts2 with
          | Token.separator .parenRight :: ts3 =>
            match trailing with
            | some _ => .error "Stray operator in expression"
            | none => postfixLoop fuel ts3 e
          | _ => .error "Unclosed parenthesis in binary tree"
      | Token.operator op =>
        if op = .add || op = .subtract || op = .not || op = .complement then
          match readBtreeExpression fuel ts1 none with
          | .error e => .error e
          | .ok (child, ts2) => postfixLoop fuel ts2 (.unary op child)
        else
          .error "Invalid unary operator in expression"
      | Token.identifier name =>
        match ts1 with
        | Token.separator .parenLeft :: _ =>
          match readFunctionCall fuel ts1 name with
          | .error e => .error e
          | .ok (e, ts2) => postfixLoop fuel ts2 e
        | _ => postfixLoop fuel ts1 (.literalIdentifier name)
      | Token.real r => postfixLoop fuel ts1 (.literalReal r)
      | Token.string s => postfixLoop fuel ts1 (.literalString s)
      | _ => .error "Invalid token while scanning binary tree"

/-- Translated from the postfix loop of `AST::read_btree_expression`
(`ast.rs` lines 707-775): repeatedly attach `[...]` index groups and
`.identifier` derefs to the atom. -/
def postfixLoop : Nat → List Token → Expr → Except String (Expr × List Token)
  | 0, _, _ => .error "out of fuel"
  | fuel+1, ts, lhs =>
    match ts with
    | Token.separator .bracketLeft :: ts1 =>
      match ts1 with
      | Token.separator .bracketRight :: ts2 =>
        postfixLoop fuel ts2 (.binary .index lhs (.group []))
      | _ =>
        match readIndexDims fuel ts1 [] with
        | .error e => .error e
        | .ok (dims, ts2) => postfixLoop fuel ts2 (.binary .index lhs (.group dims))
    | Token.separator .period :: ts1 =>
      match ts1 with
      | Token.identifier id :: ts2 =>
        postfixLoop fuel ts2 (.binary .deref lhs (.literalIdentifier id))
      | _ :: _ => .error "Unexpected token following deref"
      | [] => .error "Found EOF unexpectedly while reading binary tree"
    | _ => .ok (lhs, ts)

/-- Translated from the dimension-reading loop of `AST::read_btree_expression`
(`ast.rs` lines 715-742): comma-separated index expressions, trailing comma
permitted, closed by a right bracket. -/
def readIndexDims : Nat → List Token → List Expr →
    Except String (List Expr × List Token)
  | 0, _, _ => .error "out of fuel"
  | fuel+1, ts, acc =>
    match readBinaryTree fuel ts none false 0 with
    | .error e => .error e
    | .ok (_, some _, _) => .error "unreachable: read_binary_tree returned an operator"
    | .ok (dim, none, ts1) =>
      match ts1 with
      | Token.separator .bracketRight :: ts2 => .ok (acc ++ [dim], ts2)
      | Token.separator .comma :: ts2 =>
        match ts2 with
        | Token.separator .bracketRight :: ts3 => .ok (acc ++ [dim], ts3)
        | _ => readIndexDims fuel ts2 (acc ++ [dim])
      | _ :: _ => .error "Invalid token, expected expression"
      | [] => .error "Found EOF unexpectedly while reading array accessor"

/-- Translated from `AST::read_function_call` (`ast.rs` lines 780-824). -/
def readFunctionCall : Nat → List Token → String → Except String (Expr × List Token)
  | 0, _, _ => .error "out of fuel"
  | fuel+1, ts, name =>
    match ts with
    | Token.separator .parenLeft :: ts1 =>
      match ts1 with
      | Token.separator .parenRight :: ts2 => .ok (.function name [], ts2)
      | _ =>
        match readParams fuel ts1 [] with
        | .error e => .error e
        | .ok (params, ts2) => .ok (.function name params, ts2)
    | _ :: _ => .error "Unexpected token; parenLeft expected"
    | [] => .error "Unexpected EOF; parenLeft expected"

/-- Translated from the parameter-reading loop of `AST::read_function_call`
(`ast.rs` lines 791-818): comma-separated parameters, trailing comma
permitted, closed by a right parenthesis. -/
def readParams : Nat → List Token → List Expr →
    Except String (List Expr × List Token)
  | 0, _, _ => .error "out of fuel"
  | fuel+1, ts, acc =>
    match readBinaryTree fuel ts none false 0 with
    | .error e => .error e
    | .ok (_, some _, _) => .error "unreachable: read_binary_tree returned an operator"
    | .ok (param, none, ts1) =>
      match ts1 with
      | Token.separator .parenRight :: ts2 => .ok (acc ++ [param], ts2)
      | Token.separator .comma :: ts2 =>
        match ts2 with
        | Token.separator .parenRight :: ts3 => .ok (acc ++ [param], ts3)
        | _ => readParams fuel ts2 (acc ++ [param])
      | _ :: _ => .error "Invalid token, expected expression"
      | [] => .error "Found EOF unexpectedly while reading function call"

end

/-- Translated from the top-level loop of `AST::new` (`ast.rs` lines 232-244):
read statements until end of input, filtering out top-level `Nop`s. -/
def parseAll : Nat → List Token → List Expr → Except String (List Expr)
  | 0, _, _ => .error "out of fuel"
  | fuel+1, ts, acc =>
    match readLine fuel ts with
    | .error e => .error e
    | .ok (none, _) => .ok acc
    | .ok (some e, ts1) =>
      if e.isNop then parseAll fuel ts1 acc else parseAll fuel ts1 (acc ++ [e])

/-- Fuel budget ample for any token list (the recursion depth of the parser is
linear in the input length with a small constant). -/
def ASTfuel (ts : List Token) : Nat := 8 * ts.length + 8

/-- Translated from `AST::new` (`ast.rs` lines 227-247), over a token list;
the result is the `expressions` field of the returned `AST`. -/
def parse (ts : List Token) : Except String (List Expr) :=
  parseAll (ASTfuel ts) ts []

/-- Translated from `AST::empty` (`ast.rs` lines 221-225). -/
def ASTempty : List Expr := []

/-! ### Lexer, modelled from the spec

`src/gml/lexer.rs` is not in the repository; the definitions below follow the
token-recognition rules of the spec (identifier/keyword maximal runs, real
literals, string literals with no escapes, longest-match operators and
separators, skipped whitespace and comments). -/

/-- Modelled from the spec: whitespace characters skipped by the lexer. -/
def isWhitespaceChar (c : Char) : Bool :=
  c = ' ' || c = Char.ofNat 9 || c = Char.ofNat 10 || c = Char.ofNat 13

/-- Modelled from the spec: first character of an identifier (`[A-Za-z_]`). -/
def isIdentStartChar (c : Char) : Bool :=
  ('a' ≤ c && c ≤ 'z') || ('A' ≤ c && c ≤ 'Z') || c = '_'

/-- Modelled from the spec: decimal digit (`[0-9]`). -/
def isDigitChar (c : Char) : Bool := '0' ≤ c && c ≤ '9'

/-- Modelled from the spec: continuation character of an identifier
(`[A-Za-z0-9_]`). -/
def isIdentContChar (c : Char) : Bool := isIdentStartChar c || isDigitChar c

/-- Modelled from the spec: the fixed keyword table, with `then` as a
separator-class token and `div`/`mod` as operator keywords. -/
def keywordTable : List (String × Token) :=
  [("var", .keyword .kVar), ("do", .keyword .kDo), ("until", .keyword .kUntil),
   ("if", .keyword .kIf), ("else", .keyword .kElse), ("for", .keyword .kFor),
   ("repeat", .keyword .kRepeat), ("switch", .keyword .kSwitch),
   ("case", .keyword .kCase), ("default", .keyword .kDefault),
   ("with", .keyword .kWith), ("while", .keyword .kWhile),
   ("break", .keyword .kBreak), ("continue", .keyword .kContinue),
   ("exit", .keyword .kExit), ("return", .keyword .kReturn),
   ("then", .separator .thenKw), ("div", .operator .intDivide),
   ("mod", .operator .modulo)]

/-- Modelled from the spec: look a word up in the fixed keyword table. -/
def keywordToken (w : String) : Option Token :=
  (keywordTable.find? (fun p => p.1 == w)).map (fun p => p.2)

/-- Modelled from the spec: an identifier run is a keyword when it is in the
fixed table, an `Identifier` token otherwise. -/
def identOrKeyword (w : String) : Token :=
  (keywordToken w).getD (.identifier w)

/-- Modelled from the spec: skip a block comment, dropping characters up to
and including the closing delimiter. -/
def skipBlockComment : List Char → List Char
  | '*' :: '/' :: r => r
  | _ :: r => skipBlockComment r
  | [] => []

/-- Modelled from the spec: collect the body of a string literal up to the
closing delimiter, with no escape processing; `none` when unterminated. -/
def takeStringBody (delim : Char) : List Char → Option (List Char × List Char)
  | [] => none
  | c :: r =>
    if c = delim then some ([], r)
    else
      match takeStringBody delim r with
      | some (s, rest) => some (c :: s, rest)
      | none => none

/-- The classes of operator and separator characters the lexer recognizes
(plus `otherC` for unrecognized characters). -/
inductive SymClass
  | slashC | eqC | bangC | ltC | gtC | ampC | pipeC | caretC
  | plusC | minusC | starC | tildeC
  | parenLC | parenRC | braceLC | braceRC | bracketLC | bracketRC
  | commaC | semiC | colonC | otherC
  deriving DecidableEq, Repr

/-- Classify an operator or separator character. -/
def symClass (c : Char) : SymClass :=
  if c = '/' then .slashC
  else if c = '=' then .eqC
  else if c = '!' then .bangC
  else if c = '<' then .ltC
  else if c = '>' then .gtC
  else if c = '&' then .ampC
  else if c = '|' then .pipeC
  else if c = '^' then .caretC
  else if c = '+' then .plusC
  else if c = '-' then .minusC
  else if c = '*' then .starC
  else if c = '~' then .tildeC
  else if c = '(' then .parenLC
  else if c = ')' then .parenRC
  else if c = '{' then .braceLC
  else if c = '}' then .braceRC
  else if c = '[' then .bracketLC
  else if c = ']' then .bracketRC
  else if c = ',' then .commaC
  else if c = ';' then .semiC
  else if c = ':' then .colonC
  else .otherC

/-- Prefix a token onto the result of lexing the remainder. -/
def lexCons (t : Token) (r : Except String (List Token)) :
    Except String (List Token) :=
  match r with
  | .error e => .error e
  | .ok ts => .ok (t :: ts)

mutual

/-- Modelled from the spec: the single-pass lexer over the character list
(`src/gml/lexer.rs` is not in the repository).  Whitespace and comments are
skipped; identifiers/keywords, real literals, string literals, and
longest-match operators and separators are produced; unterminated strings and
unrecognized characters are errors.  Operator and separator characters are
handled by `lexSymbol`. -/
def lexAll : Nat → List Char → Except String (List Token)
  | 0, _ => .error "out of fuel"
  | _+1, [] => .ok []
  | fuel+1, c :: rest =>
    if isWhitespaceChar c then lexAll fuel rest
    else if isIdentStartChar c then
      let word := String.mk (c :: rest.takeWhile isIdentContChar)
      lexCons (identOrKeyword word) (lexAll fuel (rest.dropWhile isIdentContChar))
    else if isDigitChar c then
      let intPart := c :: rest.takeWhile isDigitChar
      let r1 := rest.dropWhile isDigitChar
      match r1 with
      | '.' :: d :: r2 =>
        if isDigitChar d then
          lexCons (.real (String.mk (intPart ++ '.' :: (d :: r2).takeWhile isDigitChar)))
            (lexAll fuel ((d :: r2).dropWhile isDigitChar))
        else lexCons (.real (String.mk intPart)) (lexAll fuel r1)
      | _ => lexCons (.real (String.mk intPart)) (lexAll fuel r1)
    else if c = '"' || c = Char.ofNat 39 then
      match takeStringBody c rest with
      | some (body, r) => lexCons (.string (String.mk body)) (lexAll fuel r)
      | none => .error "Unterminated string literal"
    else if c = '.' then
      match rest with
      | d :: _ =>
        if isDigitChar d then
          lexCons (.real (String.mk ('.' :: rest.takeWhile isDigitChar)))
            (lexAll fuel (rest.dropWhile isDigitChar))
        else lexCons (.separator .period) (lexAll fuel rest)
      | [] => lexCons (.separator .period) (lexAll fuel rest)
    else
      lexSymbol fuel c rest

/-- Modelled from the spec: longest-match recognition of the operator and
separator characters, including comment skipping on `/`, dispatching on the
symbol class of the character (see `symClass`). -/
def lexSymbol : Nat → Char → List Char → Except String (List Token)
  | 0, _, _ => .error "out of fuel"
  | fuel+1, c, rest =>
    match symClass c with
    | .slashC =>
      match rest with
      | '/' :: r => lexAll fuel (r.dropWhile (fun ch => !(ch = Char.ofNat 10)))
      | '*' :: r => lexAll fuel (skipBlockComment r)
      | '=' :: r => lexCons (.operator .assignDivide) (lexAll fuel r)
      | _ => lexCons (.operator .divide) (lexAll fuel rest)
    | .eqC =>
      match rest with
      | '=' :: r => lexCons (.operator .equal) (lexAll fuel r)
      | _ => lexCons (.operator .assign) (lexAll fuel rest)
    | .bangC =>
      match rest with
      | '=' :: r => lexCons (.operator .notEqual) (lexAll fuel r)
      | _ => lexCons (.operator .not) (lexAll fuel rest)
    | .ltC =>
      match rest with
      | '=' :: r => lexCons (.operator .lessThanOrEqual) (lexAll fuel r)
      | '<' :: r => lexCons (.operator .binaryShiftLeft) (lexAll fuel r)
      | _ => lexCons (.operator .lessThan) (lexAll fuel rest)
    | .gtC =>
      match rest with
      | '=' :: r => lexCons (.operator .greaterThanOrEqual) (lexAll fuel r)
      | '>' :: r => lexCons (.operator .binaryShiftRight) (lexAll fuel r)
      | _ => lexCons (.operator .greaterThan) (lexAll fuel rest)
    | .ampC =>
      match rest with
      | '&' :: r => lexCons (.operator .and) (lexAll fuel r)
      | '=' :: r => lexCons (.operator .assignBinaryAnd) (lexAll fuel r)
      | _ => lexCons (.operator .binaryAnd) (lexAll fuel rest)
    | .pipeC =>
      match rest with
      | '|' :: r => lexCons (.operator .or) (lexAll fuel r)
      | '=' :: r => lexCons (.operator .assignBinaryOr) (lexAll fuel r)
      | _ => lexCons (.operator .binaryOr) (lexAll fuel rest)
    | .caretC =>
      match rest with
      | '^' :: r => lexCons (.operator .xor) (lexAll fuel r)
      | '=' :: r => lexCons (.operator .assignBinaryXor) (lexAll fuel r)
      | _ => lexCons (.operator .binaryXor) (lexAll fuel rest)
    | .plusC =>
      match rest with
      | '=' :: r => lexCons (.operator .assignAdd) (lexAll fuel r)
      | _ => lexCons (.operator .add) (lexAll fuel rest)
    | .minusC =>
      match rest with
      | '=' :: r => lexCons (.operator .assignSubtract) (lexAll fuel r)
      | _ => lexCons (.operator .subtract) (lexAll fuel rest)
    | .starC =>
      match rest with
      | '=' :: r => lexCons (.operator .assignMultiply) (lexAll fuel r)
      | _ => lexCons (.operator .multiply) (lexAll fuel rest)
    | .tildeC => lexCons (.operator .complement) (lexAll fuel rest)
    | .parenLC => lexCons (.separator .parenLeft) (lexAll fuel rest)
    | .parenRC => lexCons (.separator .parenRight) (lexAll fuel rest)
    | .braceLC => lexCons (.separator .braceLeft) (lexAll fuel rest)
    | .braceRC => lexCons (.separator .braceRight) (lexAll fuel rest)
    | .bracketLC => lexCons (.separator .bracketLeft) (lexAll fuel rest)
    | .bracketRC => lexCons (.separator .bracketRight) (lexAll fuel rest)
    | .commaC => lexCons (.separator .comma) (lexAll fuel rest)
    | .semiC => lexCons (.separator .semicolon) (lexAll fuel rest)
    | .colonC => lexCons (.separator .colon) (lexAll fuel rest)
    | .otherC => .error "Unrecognized character"

end

/-- Modelled from the spec: lex a whole source string. -/
def lexString (s : String) : Except String (List Token) :=
  lexAll (2 * s.data.length + 2) s.data

/-- The public `parse(source)` surface: lex, then parse.  (In the Rust code the
parser pulls tokens from the lexer lazily and propagates lexical errors as it
reaches them; pre-lexing is equivalent for every input whose parse consumes
the whole stream, and for erroring inputs both models report an error.) -/
def parseString (s : String) : Except String (List Expr) :=
  match lexString s with
  | .error e => .error e
  | .ok ts => parse ts

/-- Whether an `Except` result is an error. -/
def isErr : Except String (List Expr) → Bool
  | .error _ => true
  | .ok _ => false

/-! ### Pretty-printer

Translated from `impl fmt::Display for Expr` (`ast.rs` lines 126-189).  The
textual renderings of operators live in the absent `token.rs` and are
modelled from the printer contract of the spec and scenario outputs. -/

/-- Modelled from the spec: the `Display` rendering of each operator
(`src/gml/token.rs` is not in the repository); the pseudo-operator `Deref`
renders as `.` and `Index` as `Index`, per scenario 4 of the spec. -/
def opText : Operator → String
  | .add => "+"
  | .subtract => "-"
  | .multiply => "*"
  | .divide => "/"
  | .intDivide => "div"
  | .binaryAnd => "&"
  | .binaryOr => "|"
  | .binaryXor => "^"
  | .assign => "="
  | .not => "!"
  | .lessThan => "<"
  | .greaterThan => ">"
  | .assignAdd => "+="
  | .assignSubtract => "-="
  | .assignMultiply => "*="
  | .assignDivide => "/="
  | .assignBinaryAnd => "&="
  | .assignBinaryOr => "|="
  | .assignBinaryXor => "^="
  | .equal => "=="
  | .notEqual => "!="
  | .lessThanOrEqual => "<="
  | .greaterThanOrEqual => ">="
  | .modulo => "mod"
  | .and => "&&"
  | .or => "||"
  | .xor => "^^"
  | .binaryShiftLeft => "<<"
  | .binaryShiftRight => ">>"
  | .complement => "~"
  | .deref => "."
  | .index => "Index"

/-- Remove every trailing character satisfying `p`; translation of Rust's
`str::trim_end_matches` (and `trim_end` with a whitespace predicate). -/
def trimEndMatching (p : Char → Bool) (s : String) : String :=
  String.mk ((s.data.reverse.dropWhile p).reverse)

/-- Translation of the `.trim_end_matches(|ch| ch == ' ' || ch == ',')` call
in the `Group` arm of the printer. -/
def trimCommaSpace : String → String :=
  trimEndMatching (fun c => c = ' ' || c = ',')

/-- Translation of the `.trim_end()` calls in the `Function` and `Var` arms
of the printer. -/
def trimEndSpaces : String → String :=
  trimEndMatching isWhitespaceChar

/-- The name fold of the `Var` arm: `acc + format!("{} ", varname)` over the list. -/
def varNamesBody (vars : List String) : String :=
  vars.foldl (fun acc v => acc ++ v ++ " ") ""

mutual

/-- Translated from `impl fmt::Display for Expr` (`ast.rs` lines 126-189);
each arm mirrors the corresponding `write!` format. -/
def render : Expr → String
  | .literalIdentifier id => id
  | .literalReal r => r
  | .literalString s => "\"" ++ s ++ "\""
  | .unary op child => "(" ++ opText op ++ " " ++ render child ++ ")"
  | .binary op l r => "(" ++ opText op ++ " " ++ render l ++ " " ++ render r ++ ")"
  | .doUntil cond body => "(do " ++ render body ++ " until " ++ render cond ++ ")"
  | .forE start cond step body =>
    "(for (" ++ render start ++ ", " ++ render cond ++ ", " ++ render step ++ ") "
      ++ render body ++ ")"
  | .function name params =>
    "(@" ++ name ++ " " ++ trimEndSpaces (renderSpaceSep params) ++ ")"
  | .group children => "<" ++ trimCommaSpace (renderCommaSep children) ++ ">"
  | .ifE cond body (some els) =>
    "(if " ++ render cond ++ " " ++ render body ++ " " ++ render els ++ ")"
  | .ifE cond body none => "(if " ++ render cond ++ " " ++ render body ++ ")"
  | .repeatE count body => "(repeat " ++ render count ++ " " ++ render body ++ ")"
  | .switch input body => "(switch " ++ render input ++ " " ++ render body ++ ")"
  | .varE vars => "(var " ++ trimEndSpaces (varNamesBody vars) ++ ")"
  | .withE target body => "(with " ++ render target ++ " " ++ render body ++ ")"
  | .whileE cond body => "(while " ++ render cond ++ " " ++ render body ++ ")"
  | .caseE e => "(case " ++ render e ++ ")"
  | .defaultE => "(default)"
  | .continueE => "(continue)"
  | .breakE => "(break)"
  | .exitE => "(exit)"
  | .returnE e => "(return " ++ render e ++ ")"
  | .nop => ""

/-- The parameter fold of the `Function` arm: `Nop`s filtered out, each remaining
parameter rendered and suffixed with a space, concatenated left to right. -/
def renderSpaceSep : List Expr → String
  | [] => ""
  | e :: es =>
    (if e.isNop then "" else render e ++ " ") ++ renderSpaceSep es

/-- The child fold of the `Group` arm: `Nop`s filtered out, each remaining child
rendered and suffixed with a comma and space, concatenated left to right. -/
def renderCommaSep : List Expr → String
  | [] => ""
  | e :: es =>
    (if e.isNop then "" else render e ++ ", ") ++ renderCommaSep es

end

/-! ### Structural node predicates

`allNodes p e` checks `p` at every node of `e`; the individual claims'
structural invariants are instances of it. -/

mutual

/-- Check a node predicate at every node of an expression. -/
def allNodes (p : Expr → Bool) : Expr → Bool
  | .literalIdentifier n => p (.literalIdentifier n)
  | .literalReal r => p (.literalReal r)
  | .literalString s => p (.literalString s)
  | .unary op c => p (.unary op c) && allNodes p c
  | .binary op l r => p (.binary op l r) && allNodes p l && allNodes p r
  | .doUntil c b => p (.doUntil c b) && allNodes p c && allNodes p b
  | .forE s c st b =>
    p (.forE s c st b) && allNodes p s && allNodes p c && allNodes p st && allNodes p b
  | .function n ps => p (.function n ps) && allNodesList p ps
  | .group es => p (.group es) && allNodesList p es
  | .ifE c b (some e) =>
    p (.ifE c b (some e)) && allNodes p c && allNodes p b && allNodes p e
  | .ifE c b none => p (.ifE c b none) && allNodes p c && allNodes p b
  | .repeatE c b => p (.repeatE c b) && allNodes p c && allNodes p b
  | .switch i b => p (.switch i b) && allNodes p i && allNodes p b
  | .varE vs => p (.varE vs)
  | .withE t b => p (.withE t b) && allNodes p t && allNodes p b
  | .whileE c b => p (.whileE c b) && allNodes p c && allNodes p b
  | .caseE e => p (.caseE e) && allNodes p e
  | .defaultE => p .defaultE
  | .continueE => p .continueE
  | .breakE => p .breakE
  | .exitE => p .exitE
  | .returnE e => p (.returnE e) && allNodes p e
  | .nop => p .nop

/-- Check a node predicate at every node of every expression in a list. -/
def allNodesList (p : Expr → Bool) : List Expr → Bool
  | [] => true
  | e :: es => allNodes p e && allNodesList p es

end

/-- Node predicate for the Deref invariant: a `Binary` node whose operator is
`Deref` has a `LiteralIdentifier` right child. -/
def derefOk : Expr → Bool
  | .binary .deref _ (.literalIdentifier _) => true
  | .binary .deref _ _ => false
  | _ => true

/-- Node predicate: a `Binary` node whose operator is `Index` has a `Group`
right child (with no constraint on its length). -/
def indexGroupOk : Expr → Bool
  | .binary .index _ (.group _) => true
  | .binary .index _ _ => false
  | _ => true

/-- Node predicate for the claimed Index invariant: a `Binary` node whose
operator is `Index` has a `Group` right child of length exactly 1 or 2. -/
def indexLen12Ok : Expr → Bool
  | .binary .index _ (.group ds) => ds.length = 1 || ds.length = 2
  | .binary .index _ _ => false
  | _ => true

/-- Node predicate for the Nop invariant: no child of a `Group` node is
`Nop`. -/
def nopOk : Expr → Bool
  | .group es => es.all (fun e => !e.isNop)
  | _ => true

/-- Node predicate: the node is not a `Binary` node with operator `Assign`. -/
def noAssignNode : Expr → Bool
  | .binary .assign _ _ => false
  | _ => true

/-- The operators to which `AST::get_op_precedence` assigns a precedence,
in order of precedence level. -/
def rankedOps : List Operator :=
  [.and, .or, .xor,
   .lessThan, .greaterThan, .equal, .notEqual, .lessThanOrEqual, .greaterThanOrEqual,
   .binaryAnd, .binaryOr, .binaryXor,
   .binaryShiftLeft, .binaryShiftRight,
   .add, .subtract,
   .multiply, .divide, .intDivide, .modulo]

/-- The tree the precedence/associativity claim predicts for
`a op1 b op2 c`: right-nested exactly when `op2` has strictly higher
precedence than `op1`, left-nested otherwise (left-associativity within a
class). -/
def c1Expected (op1 op2 : Operator) : Expr :=
  if (getOpPrecedence op1).getD 0 < (getOpPrecedence op2).getD 0 then
    .binary op1 (.literalIdentifier "a")
      (.binary op2 (.literalIdentifier "b") (.literalIdentifier "c"))
  else
    .binary op2 (.binary op1 (.literalIdentifier "a") (.literalIdentifier "b"))
      (.literalIdentifier "c")

/-- Modelled from the words of the var-statement claim: collect zero or more
comma-separated identifiers; stop at the first token that is neither a comma
(in separator position) nor an identifier (in identifier position), without
consuming that stopping token. -/
def varTailSpec : List Token → List String × List Token
  | Token.separator .comma :: Token.identifier id :: rest =>
    let (vs, r) := varTailSpec rest
    (id :: vs, r)
  | Token.separator .comma :: rest => ([], rest)
  | ts => ([], ts)

/-- Modelled from the words of the var-statement claim: the full name list
of a `var` statement and the unconsumed remainder of the token stream. -/
def varCollectSpec : List Token → List String × List Token
  | Token.identifier id :: rest =>
    let (vs, r) := varTailSpec rest
    (id :: vs, r)
  | ts => ([], ts)

/-- The rendering of a list of strings joined by a comma and space, as the
Group-printing claim describes the printed children. -/
def joinCommaSep : List String → String
  | [] => ""
  | [s] => s
  | s :: rest => s ++ ", " ++ joinCommaSep rest

/-- The concatenation of a list of strings, each followed by a comma and
space (the raw fold the Group printer arm produces before trimming). -/
def catSep : List String → String
  | [] => ""
  | s :: r => s ++ (", " ++ catSep r)

/-- A string is nonempty and does not end in a space or comma (the
characters that the Group arm of the printer trims). -/
def lastCharOk (s : String) : Bool :=
  match s.data.getLast? with
  | some c => !(c = ' ' || c = ',')
  | none => false

/-- A token that the lexer can actually produce: the pseudo-operators `Deref`
and `Index` are produced only by the parser, never the lexer. -/
def tokOk : Token → Bool
  | .operator .deref => false
  | .operator .index => false
  | _ => true

/-- A token stream containing no pseudo-operator tokens. -/
def streamOk (ts : List Token) : Prop := ∀ t ∈ ts, tokOk t = true

/-- An optional already-peeked first token containing no pseudo-operator. -/
def ftOk : Option Token → Prop
  | none => True
  | some t => tokOk t = true

/-- An operator that is not one of the parser-internal pseudo-operators. -/
def opOk (op : Operator) : Prop := op ≠ .deref ∧ op ≠ .index

/-- The conjunction of the three structural node invariants: every `Deref`
right child is a `LiteralIdentifier`, every `Index` right child is a `Group`,
and no `Group` child is `Nop`. -/
def Inv (e : Expr) : Prop :=
  allNodes derefOk e = true ∧ allNodes indexGroupOk e = true ∧
  allNodes nopOk e = true

/-- The structural invariants together with not being `Nop` (true of every
expression produced by the expression-level parser functions). -/
def InvN (e : Expr) : Prop := Inv e ∧ e.isNop = false

/-! ### Theorems -/

theorem streamOk_nil : streamOk [] := by simp [streamOk]

theorem streamOk_cons {t : Token} {ts : List Token} :
    streamOk (t :: ts) ↔ tokOk t = true ∧ streamOk ts := by
  simp [streamOk]

theorem allNodesList_iff (p : Expr → Bool) (l : List Expr) :
    allNodesList p l = true ↔ ∀ x ∈ l, allNodes p x = true := by
  induction l with
  | nil => simp [allNodesList]
  | cons a l ih => simp [allNodesList, ih]

/-- A ranked operator is not a pseudo-operator, and a `Binary` node carrying
it satisfies the node invariants. -/
theorem ranked_binary_ok (op : Operator) (p : Nat)
    (hp : getOpPrecedence op = some p) (l r : Expr) :
    derefOk (.binary op l r) = true ∧ indexGroupOk (.binary op l r) = true ∧
    nopOk (.binary op l r) = true ∧ opOk op := by
  cases op <;> simp_all [getOpPrecedence, derefOk, indexGroupOk, nopOk, opOk]

/-- An unranked operator other than the pseudo-operators heads a `Binary`
node satisfying the node invariants (the assignment-class case). -/
theorem unranked_binary_ok (op : Operator) (hd : op ≠ .deref) (hi : op ≠ .index)
    (l r : Expr) :
    derefOk (.binary op l r) = true ∧ indexGroupOk (.binary op l r) = true ∧
    nopOk (.binary op l r) = true := by
  cases op <;> simp_all [derefOk, indexGroupOk, nopOk]

theorem bool_and2 {a b : Bool} (ha : a = true) (hb : b = true) :
    (a && b) = true := by simp [ha, hb]

theorem bool_and3 {a b c : Bool} (ha : a = true) (hb : b = true)
    (hc : c = true) : ((a && b) && c) = true := by simp [ha, hb, hc]

theorem bool_and4 {a b c d : Bool} (ha : a = true) (hb : b = true)
    (hc : c = true) (hd : d = true) : (((a && b) && c) && d) = true := by
  simp [ha, hb, hc, hd]

theorem bool_and5 {a b c d e : Bool} (ha : a = true) (hb : b = true)
    (hc : c = true) (hd : d = true) (he : e = true) :
    ((((a && b) && c) && d) && e) = true := by simp [ha, hb, hc, hd, he]

theorem Inv_leaf_varE (vs : List String) : Inv (.varE vs) := ⟨rfl, rfl, rfl⟩
theorem Inv_leaf_nop : Inv .nop := ⟨rfl, rfl, rfl⟩
theorem Inv_leaf_litId (n : String) : Inv (.literalIdentifier n) := ⟨rfl, rfl, rfl⟩
theorem Inv_leaf_litReal (r : String) : Inv (.literalReal r) := ⟨rfl, rfl, rfl⟩
theorem Inv_leaf_litString (s : String) : Inv (.literalString s) := ⟨rfl, rfl, rfl⟩
theorem Inv_leaf_defaultE : Inv .defaultE := ⟨rfl, rfl, rfl⟩
theorem Inv_leaf_breakE : Inv .breakE := ⟨rfl, rfl, rfl⟩
theorem Inv_leaf_continueE : Inv .continueE := ⟨rfl, rfl, rfl⟩
theorem Inv_leaf_exitE : Inv .exitE := ⟨rfl, rfl, rfl⟩

theorem Inv_mk_unary (op : Operator) (c : Expr) (h : Inv c) :
    Inv (.unary op c) :=
  ⟨bool_and2 rfl h.1, bool_and2 rfl h.2.1, bool_and2 rfl h.2.2⟩

theorem Inv_mk_binary (op : Operator) (l r : Expr)
    (hn : derefOk (.binary op l r) = true ∧ indexGroupOk (.binary op l r) = true ∧
          nopOk (.binary op l r) = true)
    (hl : Inv l) (hr : Inv r) : Inv (.binary op l r) :=
  ⟨bool_and3 hn.1 hl.1 hr.1, bool_and3 hn.2.1 hl.2.1 hr.2.1,
   bool_and3 hn.2.2 hl.2.2 hr.2.2⟩

theorem Inv_mk_doUntil (c b : Expr) (hc : Inv c) (hb : Inv b) :
    Inv (.doUntil c b) :=
  ⟨bool_and3 rfl hc.1 hb.1, bool_and3 rfl hc.2.1 hb.2.1,
   bool_and3 rfl hc.2.2 hb.2.2⟩

theorem Inv_mk_forE (s c st b : Expr) (hs : Inv s) (hc : Inv c) (hst : Inv st)
    (hb : Inv b) : Inv (.forE s c st b) :=
  ⟨bool_and5 rfl hs.1 hc.1 hst.1 hb.1,
   bool_and5 rfl hs.2.1 hc.2.1 hst.2.1 hb.2.1,
   bool_and5 rfl hs.2.2 hc.2.2 hst.2.2 hb.2.2⟩

theorem Inv_mk_ifE_some (c b e : Expr) (hc : Inv c) (hb : Inv b) (he : Inv e) :
    Inv (.ifE c b (some e)) :=
  ⟨bool_and4 rfl hc.1 hb.1 he.1, bool_and4 rfl hc.2.1 hb.2.1 he.2.1,
   bool_and4 rfl hc.2.2 hb.2.2 he.2.2⟩

theorem Inv_mk_ifE_none (c b : Expr) (hc : Inv c) (hb : Inv b) :
    Inv (.ifE c b none) :=
  ⟨bool_and3 rfl hc.1 hb.1, bool_and3 rfl hc.2.1 hb.2.1,
   bool_and3 rfl hc.2.2 hb.2.2⟩

theorem Inv_mk_repeatE (c b : Expr) (hc : Inv c) (hb : Inv b) :
    Inv (.repeatE c b) :=
  ⟨bool_and3 rfl hc.1 hb.1, bool_and3 rfl hc.2.1 hb.2.1,
   bool_and3 rfl hc.2.2 hb.2.2⟩

theorem Inv_mk_switch (c b : Expr) (hc : Inv c) (hb : Inv b) :
    Inv (.switch c b) :=
  ⟨bool_and3 rfl hc.1 hb.1, bool_and3 rfl hc.2.1 hb.2.1,
   bool_and3 rfl hc.2.2 hb.2.2⟩

theorem Inv_mk_withE (c b : Expr) (hc : Inv c) (hb : Inv b) :
    Inv (.withE c b) :=
  ⟨bool_and3 rfl hc.1 hb.1, bool_and3 rfl hc.2.1 hb.2.1,
   bool_and3 rfl hc.2.2 hb.2.2⟩

theorem Inv_mk_whileE (c b : Expr) (hc : Inv c) (hb : Inv b) :
    Inv (.whileE c b) :=
  ⟨bool_and3 rfl hc.1 hb.1, bool_and3 rfl hc.2.1 hb.2.1,
   bool_and3 rfl hc.2.2 hb.2.2⟩

theorem Inv_mk_caseE (e : Expr) (he : Inv e) : Inv (.caseE e) :=
  ⟨bool_and2 rfl he.1, bool_and2 rfl he.2.1, bool_and2 rfl he.2.2⟩

theorem Inv_mk_returnE (e : Expr) (he : Inv e) : Inv (.returnE e) :=
  ⟨bool_and2 rfl he.1, bool_and2 rfl he.2.1, bool_and2 rfl he.2.2⟩

theorem Inv_mk_group (es : List Expr) (h : ∀ x ∈ es, InvN x) :
    Inv (.group es) := by
  refine ⟨bool_and2 rfl ?_, bool_and2 rfl ?_, bool_and2 ?_ ?_⟩
  · exact (allNodesList_iff _ _).mpr fun x hx => (h x hx).1.1
  · exact (allNodesList_iff _ _).mpr fun x hx => (h x hx).1.2.1
  · show nopOk (.group es) = true
    simp only [nopOk, List.all_eq_true]
    exact fun x hx => by simp [(h x hx).2]
  · exact (allNodesList_iff _ _).mpr fun x hx => (h x hx).1.2.2

theorem Inv_mk_function (n : String) (ps : List Expr) (h : ∀ x ∈ ps, Inv x) :
    Inv (.function n ps) := by
  refine ⟨bool_and2 rfl ?_, bool_and2 rfl ?_, bool_and2 rfl ?_⟩
  · exact (allNodesList_iff _ _).mpr fun x hx => (h x hx).1
  · exact (allNodesList_iff _ _).mpr fun x hx => (h x hx).2.1
  · exact (allNodesList_iff _ _).mpr fun x hx => (h x hx).2.2

theorem Inv_mk_index (lhs : Expr) (dims : List Expr) (hl : Inv lhs)
    (hd : ∀ x ∈ dims, InvN x) : Inv (.binary .index lhs (.group dims)) :=
  Inv_mk_binary _ _ _ ⟨rfl, rfl, rfl⟩ hl (Inv_mk_group dims hd)

theorem Inv_mk_deref (lhs : Expr) (id : String) (hl : Inv lhs) :
    Inv (.binary .deref lhs (.literalIdentifier id)) :=
  Inv_mk_binary _ _ _ ⟨rfl, rfl, rfl⟩ hl (Inv_leaf_litId id)

/-- The var-name loop only drops tokens from the front of the stream, so it
preserves stream wellformedness. -/
theorem readVarsTail_streamOk :
    ∀ ts, streamOk ts → streamOk (readVarsTail ts).2 := by
  intro ts
  induction ts using readVarsTail.induct with
  | case1 id rest2 vs r heq ih =>
    intro h
    have h2 := (streamOk_cons.mp ((streamOk_cons.mp h).2)).2
    have h3 := ih h2
    rw [heq] at h3
    simpa [readVarsTail, heq] using h3
  | case2 rest hne =>
    intro h
    have h1 := (streamOk_cons.mp h).2
    cases rest with
    | nil => simpa [readVarsTail] using streamOk_nil
    | cons t r =>
      cases t with
      | identifier id => exact (hne id r rfl).elim
      | _ => simpa [readVarsTail] using h1
  | case3 ts hne =>
    intro h
    cases ts with
    | nil => simpa [readVarsTail] using h
    | cons t r =>
      cases t with
      | separator sep =>
        cases sep with
        | comma => exact (hne r rfl).elim
        | _ => simpa [readVarsTail] using h
      | _ => simpa [readVarsTail] using h

/-- Consuming an optional `then` preserves stream wellformedness. -/
theorem consumeThen_streamOk :
    ∀ ts, streamOk ts → streamOk (consumeThen ts) := by
  intro ts h
  cases ts with
  | nil => simpa [consumeThen] using h
  | cons t r =>
    cases t with
    | separator sep =>
      cases sep <;>
        first
          | exact (streamOk_cons.mp h).2
          | simpa [consumeThen] using h
    | _ => simpa [consumeThen] using h

/-- Consuming an optional semicolon preserves stream wellformedness. -/
theorem consumeSemicolon_streamOk :
    ∀ ts, streamOk ts → streamOk (consumeSemicolon ts) := by
  intro ts h
  cases ts with
  | nil => simpa [consumeSemicolon] using h
  | cons t r =>
    cases t with
    | separator sep =>
      cases sep <;>
        first
          | exact (streamOk_cons.mp h).2
          | simpa [consumeSemicolon] using h
    | _ => simpa [consumeSemicolon] using h

/-- The shape of the conclusion of the `readLine` component of the master
invariant, at a successful statement. -/
theorem rl_concl {X : Expr} {rest : List Token} (hX : Inv X)
    (hrest : streamOk rest) :
    (∀ e, ((some X, rest) : Option Expr × List Token).1 = some e → Inv e) ∧
      streamOk rest := by
  refine ⟨?_, hrest⟩
  intro e he
  simp only [Option.some.injEq] at he
  subst he
  exact hX

/-- Dropping leading semicolons preserves stream wellformedness. -/
theorem dropSemicolons_streamOk :
    ∀ ts, streamOk ts → streamOk (dropSemicolons ts) := by
  intro ts
  induction ts using dropSemicolons.induct with
  | case1 rest ih =>
    intro h
    simpa [dropSemicolons] using ih (streamOk_cons.mp h).2
  | case2 ts hne =>
    intro h
    cases ts with
    | nil => simpa [dropSemicolons] using h
    | cons t r =>
      cases t with
      | separator sep =>
        cases sep with
        | semicolon => exact (hne r rfl).elim
        | _ => simpa [dropSemicolons] using h
      | _ => simpa [dropSemicolons] using h

/-- Claim C8: parsing the empty string succeeds and returns an AST whose
top-level expression list is empty, equal to the result of `AST::empty()`. -/
theorem claim_C8 : parseString "" = Except.ok ASTempty ∧ ASTempty = ([] : List Expr) :=
  ⟨rfl, rfl⟩

/-- Claim C1: for ranked operators `op1`, `op2`, the expression
`a op1 b op2 c` parses to a right-nested tree exactly when `op2` has strictly
higher precedence than `op1` and to a left-nested (left-associative) tree
otherwise, with the precedence table 0 for logical, 1 for comparison, 2 for
bitwise, 3 for shifts, 4 for additive, 5 for multiplicative operators; shown
both for the expression assembler alone and for a full assignment statement
with that right-hand side. -/
theorem claim_C1 :
    (∀ op1 ∈ rankedOps, ∀ op2 ∈ rankedOps,
      readBinaryTree 16
          [Token.identifier "a", Token.operator op1, Token.identifier "b",
           Token.operator op2, Token.identifier "c"] none false 0
        = .ok (c1Expected op1 op2, none, []) ∧
      parse [Token.identifier "x", Token.operator .assign, Token.identifier "a",
             Token.operator op1, Token.identifier "b", Token.operator op2,
             Token.identifier "c"]
        = .ok [.binary .assign (.literalIdentifier "x") (c1Expected op1 op2)]) ∧
    rankedOps.map getOpPrecedence =
      [some 0, some 0, some 0,
       some 1, some 1, some 1, some 1, some 1, some 1,
       some 2, some 2, some 2,
       some 3, some 3,
       some 4, some 4,
       some 5, some 5, some 5, some 5] := by
  refine ⟨?_, rfl⟩
  intro op1 h1 op2 h2
  fin_cases h1 <;> fin_cases h2 <;> exact ⟨rfl, rfl⟩

/-- Witness for claim C1 at `op1 = +`, `op2 = *`. -/
theorem claim_C1_witness :
    Operator.add ∈ rankedOps ∧ Operator.multiply ∈ rankedOps ∧
    parse [Token.identifier "x", Token.operator .assign, Token.identifier "a",
           Token.operator .add, Token.identifier "b", Token.operator .multiply,
           Token.identifier "c"]
      = .ok [.binary .assign (.literalIdentifier "x") (c1Expected .add .multiply)] :=
  ⟨by decide, by decide,
    (claim_C1.1 .add (by decide) .multiply (by decide)).2⟩

/-- Claim C3 counterexample: the parse of `a = b[]` succeeds, yet its result
contains an `Index` node whose right child is a `Group` of length 0, so the
claimed length-1-or-2 invariant fails on it.  (`a = b[c,d,e]` likewise yields
a `Group` of length 3.) -/
theorem claim_C3_counterexample :
    parseString "a = b[]"
      = Except.ok [.binary .assign (.literalIdentifier "a")
          (.binary .index (.literalIdentifier "b") (.group []))] ∧
    allNodes indexLen12Ok
        (.binary .assign (.literalIdentifier "a")
          (.binary .index (.literalIdentifier "b") (.group []))) = false ∧
    parseString "a = b[c,d,e]"
      = Except.ok [.binary .assign (.literalIdentifier "a")
          (.binary .index (.literalIdentifier "b")
            (.group [.literalIdentifier "c", .literalIdentifier "d",
                     .literalIdentifier "e"]))] ∧
    allNodes indexLen12Ok
        (.binary .assign (.literalIdentifier "a")
          (.binary .index (.literalIdentifier "b")
            (.group [.literalIdentifier "c", .literalIdentifier "d",
                     .literalIdentifier "e"]))) = false :=
  ⟨rfl, rfl, rfl, rfl⟩

/-- Claim C9 counterexample: on a `Group` whose child rendering ends in a
comma, the printer trims into the child itself, so the output differs from
the joined renderings of the children. -/
theorem claim_C9_counterexample :
    render (.group [.literalIdentifier "a,"]) = "<a>" ∧
    "<" ++ joinCommaSep
        (([Expr.literalIdentifier "a,"].filter (fun e => !e.isNop)).map render)
      ++ ">" = "<a,>" ∧
    ("<a>" : String) ≠ "<a,>" :=
  ⟨rfl, rfl, by decide⟩

/-- An identifier-led statement whose identifier is followed by a
precedence-ranked operator errors in `read_binary_tree` (expected
assignment). -/
theorem readLine_ident_ranked_err (fuel : Nat) (name : String) (op : Operator)
    (rest : List Token) (p : Nat) (hp : getOpPrecedence op = some p) :
    readLine (fuel+5) (Token.identifier name :: Token.operator op :: rest)
      = .error "Invalid operator found, expected assignment" := by
  simp [readLine, readBinaryTree, readBtreeExpression, readBtreeAtom, postfixLoop,
    binaryLoop, hp]

/-- An identifier-led statement whose identifier is followed by `!` or `~`
errors in `read_binary_tree` (expected evaluable). -/
theorem readLine_ident_unary_err (fuel : Nat) (name : String) (op : Operator)
    (rest : List Token) (h : op = .not ∨ op = .complement) :
    readLine (fuel+5) (Token.identifier name :: Token.operator op :: rest)
      = .error "Invalid operator found, expected evaluable" := by
  rcases h with rfl | rfl <;>
    simp [readLine, readBinaryTree, readBtreeExpression, readBtreeAtom, postfixLoop,
      binaryLoop, getOpPrecedence]

/-- Claim C5: an identifier-led statement whose identifier is followed by a
precedence-ranked operator or by `!` or `~` fails to parse, whatever follows;
in particular `i * 9`, `j ! 10` and `k ~ 11` fail. -/
theorem claim_C5 :
    (∀ name op rest,
      (getOpPrecedence op).isSome = true ∨ op = .not ∨ op = .complement →
      isErr (parse (Token.identifier name :: Token.operator op :: rest)) = true) ∧
    isErr (parseString "i * 9") = true ∧
    isErr (parseString "j ! 10") = true ∧
    isErr (parseString "k ~ 11") = true := by
  refine ⟨?_, rfl, rfl, rfl⟩
  intro name op rest h
  have hfuel : ASTfuel (Token.identifier name :: Token.operator op :: rest)
      = (8 * rest.length + 23) + 1 := by
    simp [ASTfuel, List.length_cons]
    ring
  show isErr (parseAll (ASTfuel _) _ []) = true
  rw [hfuel]
  have h18 : (8 * rest.length + 18) + 5 = 8 * rest.length + 23 := by ring
  rcases h with hop | hu
  · obtain ⟨p, hp⟩ := Option.isSome_iff_exists.mp hop
    have herr := readLine_ident_ranked_err (8 * rest.length + 18) name op rest p hp
    rw [h18] at herr
    simp [parseAll, herr, isErr]
  · have herr := readLine_ident_unary_err (8 * rest.length + 18) name op rest hu
    rw [h18] at herr
    simp [parseAll, herr, isErr]

/-- Witness for claim C5 at `name = "i"`, `op = *`, `rest = [9]`. -/
theorem claim_C5_witness :
    isErr (parse [Token.identifier "i", Token.operator .multiply,
                  Token.real "9"]) = true :=
  claim_C5.1 "i" .multiply [Token.real "9"] (Or.inl (by decide))

/-- The code path for the identifier loop of a `var` statement computes the
same names and remainder as the claim-worded collection function. -/
theorem readVarsTail_eq_varTailSpec : ∀ ts, readVarsTail ts = varTailSpec ts := by
  intro ts
  induction ts using varTailSpec.induct with
  | case1 id rest vs r heq ih => simp [readVarsTail, varTailSpec, ih]
  | case2 rest h => cases rest with
    | nil => simp [readVarsTail, varTailSpec]
    | cons t r =>
      cases t <;> simp_all [readVarsTail, varTailSpec]
  | case3 ts h h2 =>
    cases ts with
    | nil => simp [readVarsTail, varTailSpec]
    | cons t r =>
      cases t with
      | separator sep => cases sep <;> simp_all [readVarsTail, varTailSpec]
      | _ => simp [readVarsTail, varTailSpec]

/-- Claim C6: a `var` statement collects zero or more comma-separated
identifiers and stops at the first token that fits neither position, without
consuming it; in particular `var; var a,b,; var c,var` parses to four `Var`
nodes with name lists `[]`, `[a, b]`, `[c]`, `[]`. -/
theorem claim_C6 :
    (∀ fuel ts, readLine (fuel+1) (Token.keyword .kVar :: ts)
        = .ok (some (.varE (varCollectSpec ts).1), (varCollectSpec ts).2)) ∧
    parseString "var; var a,b,; var c,var"
      = .ok [.varE [], .varE ["a", "b"], .varE ["c"], .varE []] := by
  refine ⟨?_, rfl⟩
  intro fuel ts
  cases ts with
  | nil => simp [readLine, varCollectSpec]
  | cons t r =>
    cases t with
    | identifier id => simp [readLine, varCollectSpec, readVarsTail_eq_varTailSpec]
    | _ => simp [readLine, varCollectSpec]

/-- Whenever `read_binary_tree` or its operator loop succeeds with a pending
trailing operator, that operator is ranked and its precedence is strictly
below the `lowest_prec` argument of the call. -/
theorem trailing_op_spec :
    ∀ fuel,
      (∀ ts ft ea lp e op rest,
          readBinaryTree fuel ts ft ea lp = .ok (e, some op, rest) →
          ∃ p, getOpPrecedence op = some p ∧ p < lp) ∧
      (∀ ts lhs op0 ea lp e op rest,
          binaryLoop fuel ts lhs op0 ea lp = .ok (e, some op, rest) →
          ∃ p, getOpPrecedence op = some p ∧ p < lp) := by
  intro fuel
  induction fuel with
  | zero =>
    constructor
    · intro ts ft ea lp e op rest h
      simp [readBinaryTree] at h
    · intro ts lhs op0 ea lp e op rest h
      simp [binaryLoop] at h
  | succ fuel ih =>
    constructor
    · intro ts ft ea lp e op rest h
      simp only [readBinaryTree] at h
      split at h
      · exact absurd h (by simp)
      · split at h
        · exact ih.2 _ _ _ _ _ _ _ _ h
        · split at h
          · exact absurd h (by simp)
          · simp at h
    · intro ts lhs op0 ea lp e op rest h
      simp only [binaryLoop] at h
      split at h
      · next precedence heq =>
        split at h
        · exact absurd h (by simp)
        · split at h
          · simp at h
            exact ⟨precedence, by rw [h.2.1] at heq; exact heq, by omega⟩
          · split at h
            · exact absurd h (by simp)
            · split at h
              · next nextPrec heq2 =>
                split at h
                · simp at h
                  exact ⟨nextPrec, by rw [h.2.1] at heq2; exact heq2, by omega⟩
                · exact ih.2 _ _ _ _ _ _ _ _ h
              · exact absurd h (by simp)
            · simp at h
      · next heq =>
        split at h
        · exact absurd h (by simp)
        · split at h
          · exact absurd h (by simp)
          · exact absurd h (by simp)
          · simp at h

/-- Claim C10: whenever `read_binary_tree` returns `Ok` with a pending
trailing operator `Some(op)`, `op` is precedence-ranked with precedence
strictly below the `lowest_prec` argument of that call; hence every call made
with `lowest_prec = 0` returns no trailing operator, so the
stray-operator/unreachable branches guarding those call sites cannot be
taken. -/
theorem claim_C10 :
    (∀ fuel ts ft ea lp e op rest,
        readBinaryTree fuel ts ft ea lp = .ok (e, some op, rest) →
        ∃ p, getOpPrecedence op = some p ∧ p < lp) ∧
    (∀ fuel ts ft ea e op rest,
        readBinaryTree fuel ts ft ea 0 = .ok (e, op, rest) → op = none) := by
  constructor
  · intro fuel
    exact (trailing_op_spec fuel).1
  · intro fuel ts ft ea e op rest h
    cases op with
    | none => rfl
    | some o =>
      obtain ⟨p, _, hp⟩ := (trailing_op_spec fuel).1 _ _ _ _ _ _ _ h
      exact absurd hp (by omega)

/-- Witness for claim C10: a call with `lowest_prec = 6` that does return a
trailing operator, and a call with `lowest_prec = 0` that returns none. -/
theorem claim_C10_witness :
    (∃ p, getOpPrecedence .multiply = some p ∧ p < 6) ∧
    (none : Option Operator) = none :=
  ⟨claim_C10.1 8 [Token.identifier "b", Token.operator .multiply] none false 6
      (.literalIdentifier "b") .multiply [] rfl,
   claim_C10.2 8 [Token.identifier "b"] none false
      (.literalIdentifier "b") none [] rfl⟩


/-- Master structural invariant: every success of every parser function
yields expressions satisfying the three structural node invariants (`Deref`
right children are identifiers, `Index` right children are groups, `Group`
children are not `Nop`), provided the token stream contains no
pseudo-operator tokens; and the returned remainder stream again contains no
pseudo-operator tokens. -/
theorem inv_spec : ∀ fuel,
    (∀ ts r, streamOk ts → readLine fuel ts = .ok r →
        (∀ e, r.1 = some e → Inv e) ∧ streamOk r.2) ∧
    (∀ ts acc g ts2, streamOk ts → (∀ x ∈ acc, InvN x) →
        readGroup fuel ts acc = .ok (g, ts2) → Inv g ∧ streamOk ts2) ∧
    (∀ ts ft ea lp e op ts2, streamOk ts → ftOk ft →
        readBinaryTree fuel ts ft ea lp = .ok (e, op, ts2) → InvN e ∧ streamOk ts2) ∧
    (∀ ts lhs op ea lp e op2 ts2, streamOk ts → opOk op → InvN lhs →
        binaryLoop fuel ts lhs op ea lp = .ok (e, op2, ts2) → InvN e ∧ streamOk ts2) ∧
    (∀ ts ft e ts2, streamOk ts → ftOk ft →
        readBtreeExpression fuel ts ft = .ok (e, ts2) → InvN e ∧ streamOk ts2) ∧
    (∀ ts t e ts2, streamOk ts → tokOk t = true →
        readBtreeAtom fuel ts t = .ok (e, ts2) → InvN e ∧ streamOk ts2) ∧
    (∀ ts lhs e ts2, streamOk ts → InvN lhs →
        postfixLoop fuel ts lhs = .ok (e, ts2) → InvN e ∧ streamOk ts2) ∧
    (∀ ts acc ds ts2, streamOk ts → (∀ x ∈ acc, InvN x) →
        readIndexDims fuel ts acc = .ok (ds, ts2) →
        (∀ x ∈ ds, InvN x) ∧ streamOk ts2) ∧
    (∀ ts n e ts2, streamOk ts →
        readFunctionCall fuel ts n = .ok (e, ts2) → InvN e ∧ streamOk ts2) ∧
    (∀ ts acc ps ts2, streamOk ts → (∀ x ∈ acc, InvN x) →
        readParams fuel ts acc = .ok (ps, ts2) →
        (∀ x ∈ ps, InvN x) ∧ streamOk ts2) := by
  intro fuel
  induction fuel with
  | zero =>
    refine ⟨?_, ?_, ?_, ?_, ?_, ?_, ?_, ?_, ?_, ?_⟩ <;> intros <;>
      simp_all [readLine, readGroup, readBinaryTree, binaryLoop,
        readBtreeExpression, readBtreeAtom, postfixLoop, readIndexDims,
        readFunctionCall, readParams]
  | succ fuel ih =>
    obtain ⟨ihRL, ihRG, ihRBT, ihBL, ihRBE, ihRBA, ihPL, ihRID, ihRFC, ihRP⟩ := ih
    refine ⟨?_, ?_, ?_, ?_, ?_, ?_, ?_, ?_, ?_, ?_⟩
    -- readLine
    · intro ts r hs h
      rcases ts with _ | ⟨t, ts1⟩
      · simp only [readLine, Except.ok.injEq] at h
        subst h
        exact ⟨by simp, streamOk_nil⟩
      · have hs1 : streamOk ts1 := (streamOk_cons.mp hs).2
        cases t with
        | keyword k =>
          cases k with
          | kVar =>
            simp only [readLine] at h
            split at h
            · next id rest =>
              have hrest : streamOk rest := (streamOk_cons.mp hs1).2
              simp only [Except.ok.injEq] at h
              subst h
              exact rl_concl (Inv_leaf_varE _) (readVarsTail_streamOk rest hrest)
            · simp only [Except.ok.injEq] at h
              subst h
              exact rl_concl (Inv_leaf_varE _) hs1
          | kDo =>
            simp only [readLine] at h
            split at h
            · exact absurd h (by simp)
            · exact absurd h (by simp)
            · next body ts2 heq =>
              obtain ⟨hb, hs2⟩ := ihRL ts1 (some body, ts2) hs1 heq
              have hbody := hb body rfl
              split at h
              · next ts3 =>
                have hs3 : streamOk ts3 := (streamOk_cons.mp hs2).2
                split at h
                · exact absurd h (by simp)
                · exact absurd h (by simp)
                · next cond ts4 heq2 =>
                  obtain ⟨hc, hs4⟩ := ihRBT ts3 none false 0 cond none ts4 hs3 trivial heq2
                  simp only [Except.ok.injEq] at h
                  subst h
                  exact rl_concl (Inv_mk_doUntil cond body hc.1 hbody) hs4
              · exact absurd h (by simp)
          | kIf =>
            simp only [readLine] at h
            split at h
            · exact absurd h (by simp)
            · exact absurd h (by simp)
            · next cond ts2 heq =>
              obtain ⟨hc, hs2⟩ := ihRBT ts1 none false 0 cond none ts2 hs1 trivial heq
              have hs2b := consumeThen_streamOk ts2 hs2
              split at h
              · exact absurd h (by simp)
              · exact absurd h (by simp)
              · next body ts3 heq2 =>
                obtain ⟨hbfun, hs3⟩ := ihRL (consumeThen ts2) (some body, ts3) hs2b heq2
                have hbody := hbfun body rfl
                split at h
                · next ts3a =>
                  have hs3a : streamOk ts3a := (streamOk_cons.mp hs3).2
                  split at h
                  · exact absurd h (by simp)
                  · exact absurd h (by simp)
                  · next elseB ts4 heq3 =>
                    obtain ⟨hefun, hs4⟩ := ihRL ts3a (some elseB, ts4) hs3a heq3
                    simp only [Except.ok.injEq] at h
                    subst h
                    exact rl_concl
                      (Inv_mk_ifE_some cond body elseB hc.1 hbody (hefun elseB rfl)) hs4
                · simp only [Except.ok.injEq] at h
                  subst h
                  exact rl_concl (Inv_mk_ifE_none cond body hc.1 hbody) hs3
          | kFor =>
            simp only [readLine] at h
            split at h
            · next ts2 =>
              have hs2 : streamOk ts2 := (streamOk_cons.mp hs1).2
              split at h
              · exact absurd h (by simp)
              · exact absurd h (by simp)
              · next start ts3 heq =>
                obtain ⟨hsfun, hs3⟩ := ihRL ts2 (some start, ts3) hs2 heq
                have hstart := hsfun start rfl
                have hs3b := consumeSemicolon_streamOk ts3 hs3
                split at h
                · exact absurd h (by simp)
                · exact absurd h (by simp)
                · next cond ts4 heq2 =>
                  obtain ⟨hcond, hs4⟩ :=
                    ihRBT (consumeSemicolon ts3) none false 0 cond none ts4 hs3b trivial heq2
                  have hs4b := consumeSemicolon_streamOk ts4 hs4
                  split at h
                  · exact absurd h (by simp)
                  · exact absurd h (by simp)
                  · next step ts5 heq3 =>
                    obtain ⟨hstfun, hs5⟩ := ihRL (consumeSemicolon ts4) (some step, ts5) hs4b heq3
                    have hstep := hstfun step rfl
                    have hs5b := dropSemicolons_streamOk ts5 hs5
                    split at h
                    · next ts6 heq4 =>
                      have hs6 : streamOk ts6 := by
                        rw [heq4] at hs5b
                        exact (streamOk_cons.mp hs5b).2
                      split at h
                      · exact absurd h (by simp)
                      · exact absurd h (by simp)
                      · next body ts7 heq5 =>
                        obtain ⟨hbfun, hs7⟩ := ihRL ts6 (some body, ts7) hs6 heq5
                        simp only [Except.ok.injEq] at h
                        subst h
                        exact rl_concl
                          (Inv_mk_forE start cond step body hstart hcond.1 hstep
                            (hbfun body rfl)) hs7
                    · exact absurd h (by simp)
            · exact absurd h (by simp)
          | kRepeat =>
            simp only [readLine] at h
            split at h
            · exact absurd h (by simp)
            · exact absurd h (by simp)
            · next count ts2 heq =>
              obtain ⟨hc, hs2⟩ := ihRBT ts1 none false 0 count none ts2 hs1 trivial heq
              split at h
              · exact absurd h (by simp)
              · exact absurd h (by simp)
              · next body ts3 heq2 =>
                obtain ⟨hbfun, hs3⟩ := ihRL ts2 (some body, ts3) hs2 heq2
                simp only [Except.ok.injEq] at h
                subst h
                exact rl_concl (Inv_mk_repeatE count body hc.1 (hbfun body rfl)) hs3
          | kSwitch =>
            simp only [readLine] at h
            split at h
            · exact absurd h (by simp)
            · exact absurd h (by simp)
            · next input ts2 heq =>
              obtain ⟨hc, hs2⟩ := ihRBT ts1 none false 0 input none ts2 hs1 trivial heq
              split at h
              · exact absurd h (by simp)
              · exact absurd h (by simp)
              · next body ts3 heq2 =>
                obtain ⟨hbfun, hs3⟩ := ihRL ts2 (some body, ts3) hs2 heq2
                simp only [Except.ok.injEq] at h
                subst h
                exact rl_concl (Inv_mk_switch input body hc.1 (hbfun body rfl)) hs3
          | kWith =>
            simp only [readLine] at h
            split at h
            · exact absurd h (by simp)
            · exact absurd h (by simp)
            · next target ts2 heq =>
              obtain ⟨hc, hs2⟩ := ihRBT ts1 none false 0 target none ts2 hs1 trivial heq
              split at h
              · exact absurd h (by simp)
              · exact absurd h (by simp)
              · next body ts3 heq2 =>
                obtain ⟨hbfun, hs3⟩ := ihRL ts2 (some body, ts3) hs2 heq2
                simp only [Except.ok.injEq] at h
                subst h
                exact rl_concl (Inv_mk_withE target body hc.1 (hbfun body rfl)) hs3
          | kWhile =>
            simp only [readLine] at h
            split at h
            · exact absurd h (by simp)
            · exact absurd h (by simp)
            · next cond ts2 heq =>
              obtain ⟨hc, hs2⟩ := ihRBT ts1 none false 0 cond none ts2 hs1 trivial heq
              split at h
              · exact absurd h (by simp)
              · exact absurd h (by simp)
              · next body ts3 heq2 =>
                obtain ⟨hbfun, hs3⟩ := ihRL ts2 (some body, ts3) hs2 heq2
                simp only [Except.ok.injEq] at h
                subst h
                exact rl_concl (Inv_mk_whileE cond body hc.1 (hbfun body rfl)) hs3
          | kCase =>
            simp only [readLine] at h
            split at h
            · exact absurd h (by simp)
            · exact absurd h (by simp)
            · next ex ts2 heq =>
              obtain ⟨hx, hs2⟩ := ihRBT ts1 none false 0 ex none ts2 hs1 trivial heq
              split at h
              · next ts3 =>
                simp only [Except.ok.injEq] at h
                subst h
                exact rl_concl (Inv_mk_caseE ex hx.1) (streamOk_cons.mp hs2).2
              · exact absurd h (by simp)
          | kDefault =>
            simp only [readLine] at h
            split at h
            · next ts2 =>
              simp only [Except.ok.injEq] at h
              subst h
              exact rl_concl Inv_leaf_defaultE (streamOk_cons.mp hs1).2
            · exact absurd h (by simp)
          | kBreak =>
            simp only [readLine, Except.ok.injEq] at h
            subst h
            exact rl_concl Inv_leaf_breakE hs1
          | kContinue =>
            simp only [readLine, Except.ok.injEq] at h
            subst h
            exact rl_concl Inv_leaf_continueE hs1
          | kExit =>
            simp only [readLine, Except.ok.injEq] at h
            subst h
            exact rl_concl Inv_leaf_exitE hs1
          | kReturn =>
            simp only [readLine] at h
            split at h
            · exact absurd h (by simp)
            · exact absurd h (by simp)
            · next val ts2 heq =>
              obtain ⟨hv, hs2⟩ := ihRBT ts1 none false 0 val none ts2 hs1 trivial heq
              simp only [Except.ok.injEq] at h
              subst h
              exact rl_concl (Inv_mk_returnE val hv.1) hs2
          | kUntil => exact absurd h (by simp [readLine])
          | kElse => exact absurd h (by simp [readLine])
        | identifier id =>
          simp only [readLine] at h
          split at h
          · exact absurd h (by simp)
          · split at h
            · exact absurd h (by simp)
            · next e2 ts2 heq =>
              obtain ⟨hf, hs2⟩ := ihRFC _ id e2 ts2 hs1 heq
              simp only [Except.ok.injEq] at h
              subst h
              exact rl_concl hf.1 hs2
          · split at h
            · exact absurd h (by simp)
            · exact absurd h (by simp)
            · next e2 ts2 heq =>
              obtain ⟨he2, hs2⟩ :=
                ihRBT ts1 (some (Token.identifier id)) true 0 e2 none ts2 hs1 rfl heq
              simp only [Except.ok.injEq] at h
              subst h
              exact rl_concl he2.1 hs2
        | separator sep =>
          cases sep with
          | braceLeft =>
            simp only [readLine] at h
            split at h
            · exact absurd h (by simp)
            · next g ts2 heq =>
              obtain ⟨hg, hs2⟩ := ihRG ts1 [] g ts2 hs1 (by simp) heq
              simp only [Except.ok.injEq] at h
              subst h
              exact rl_concl hg hs2
          | parenLeft =>
            simp only [readLine] at h
            split at h
            · exact absurd h (by simp)
            · exact absurd h (by simp)
            · next e2 ts2 heq =>
              obtain ⟨he2, hs2⟩ :=
                ihRBT ts1 (some (Token.separator .parenLeft)) true 0 e2 none ts2 hs1 rfl heq
              simp only [Except.ok.injEq] at h
              subst h
              exact rl_concl he2.1 hs2
          | semicolon =>
            simp only [readLine, Except.ok.injEq] at h
            subst h
            exact rl_concl Inv_leaf_nop hs1
          | _ => exact absurd h (by simp [readLine])
        | operator op => exact absurd h (by simp [readLine])
        | real rl => exact absurd h (by simp [readLine])
        | string st => exact absurd h (by simp [readLine])
    -- readGroup
    · intro ts acc g ts2 hs hacc h
      simp only [readGroup] at h
      split at h
      · next ts1 =>
        simp only [Except.ok.injEq, Prod.mk.injEq] at h
        obtain ⟨rfl, rfl⟩ := h
        exact ⟨Inv_mk_group acc hacc, (streamOk_cons.mp hs).2⟩
      · split at h
        · exact absurd h (by simp)
        · exact absurd h (by simp)
        · next e1 ts1 heq =>
          obtain ⟨hIfun, hs1⟩ := ihRL ts (some e1, ts1) hs heq
          have hie := hIfun e1 rfl
          split at h
          · exact ihRG ts1 acc g ts2 hs1 hacc h
          · next hnop =>
            refine ihRG ts1 (acc ++ [e1]) g ts2 hs1 ?_ h
            intro x hx
            rcases List.mem_append.mp hx with hx | hx
            · exact hacc x hx
            · simp only [List.mem_singleton] at hx
              subst hx
              exact ⟨hie, by simpa using hnop⟩
    -- readBinaryTree
    · intro ts ft ea lp e op ts2 hs hft h
      simp only [readBinaryTree] at h
      split at h
      · exact absurd h (by simp)
      · next lhs ts1 heq =>
        obtain ⟨hl, hs1⟩ := ihRBE ts ft lhs ts1 hs hft heq
        split at h
        · next op0 ts1' =>
          have hc := streamOk_cons.mp hs1
          refine ihBL ts1' lhs _ ea lp e op ts2 hc.2 ?_ hl h
          have hok : tokOk (Token.operator op0) = true := hc.1
          by_cases h0 : op0 = Operator.assign
          · subst h0
            split
            · simp [opOk]
            · simp [opOk]
          · split
            · simp [opOk]
            · simp only [opOk]
              constructor <;> intro hcon <;> subst hcon <;> simp [tokOk] at hok
        · split at h
          · exact absurd h (by simp)
          · simp only [Except.ok.injEq, Prod.mk.injEq] at h
            obtain ⟨rfl, rfl, rfl⟩ := h
            exact ⟨hl, hs1⟩
    -- binaryLoop
    · intro ts lhs op ea lp e op2 ts2 hs hop hl h
      simp only [binaryLoop] at h
      split at h
      · next precedence heq =>
        split at h
        · exact absurd h (by simp)
        · split at h
          · simp only [Except.ok.injEq, Prod.mk.injEq] at h
            obtain ⟨rfl, rfl, rfl⟩ := h
            exact ⟨hl, hs⟩
          · split at h
            · exact absurd h (by simp)
            · next rhs nextOp ts1 heq2 =>
              obtain ⟨hr, hs1⟩ :=
                ihRBT ts none false (precedence+1) rhs (some nextOp) ts1 hs trivial heq2
              have hbin := ranked_binary_ok op precedence heq lhs rhs
              have hInvBin : InvN (.binary op lhs rhs) :=
                ⟨Inv_mk_binary op lhs rhs ⟨hbin.1, hbin.2.1, hbin.2.2.1⟩ hl.1 hr.1, rfl⟩
              split at h
              · next nextPrec heq3 =>
                split at h
                · simp only [Except.ok.injEq, Prod.mk.injEq] at h
                  obtain ⟨rfl, rfl, rfl⟩ := h
                  exact ⟨hInvBin, hs1⟩
                · exact ihBL ts1 _ nextOp ea lp e op2 ts2 hs1
                    (ranked_binary_ok nextOp nextPrec heq3 lhs rhs).2.2.2 hInvBin h
              · exact absurd h (by simp)
            · next rhs ts1 heq2 =>
              obtain ⟨hr, hs1⟩ :=
                ihRBT ts none false (precedence+1) rhs none ts1 hs trivial heq2
              have hbin := ranked_binary_ok op precedence heq lhs rhs
              simp only [Except.ok.injEq, Prod.mk.injEq] at h
              obtain ⟨rfl, rfl, rfl⟩ := h
              exact ⟨⟨Inv_mk_binary op lhs rhs ⟨hbin.1, hbin.2.1, hbin.2.2.1⟩ hl.1 hr.1, rfl⟩, hs1⟩
      · next heq =>
        split at h
        · exact absurd h (by simp)
        · split at h
          · exact absurd h (by simp)
          · exact absurd h (by simp)
          · next rhs ts1 heq2 =>
            obtain ⟨hr, hs1⟩ := ihRBT ts none false lp rhs none ts1 hs trivial heq2
            have hbin := unranked_binary_ok op hop.1 hop.2 lhs rhs
            simp only [Except.ok.injEq, Prod.mk.injEq] at h
            obtain ⟨rfl, rfl, rfl⟩ := h
            exact ⟨⟨Inv_mk_binary op lhs rhs hbin hl.1 hr.1, rfl⟩, hs1⟩
    -- readBtreeExpression
    · intro ts ft e ts2 hs hft h
      simp only [readBtreeExpression] at h
      split at h
      · next t => exact ihRBA ts t e ts2 hs hft h
      · split at h
        · next t r2 =>
          have hc := streamOk_cons.mp hs
          exact ihRBA r2 t e ts2 hc.2 hc.1 h
        · exact absurd h (by simp)
    -- readBtreeAtom
    · intro ts1 t e ts2 hs htok h
      simp only [readBtreeAtom] at h
      split at h
      · split at h
        · exact absurd h (by simp)
        · next e1 trailing ts2' heq =>
          obtain ⟨hi, hs2⟩ := ihRBT ts1 none false 0 e1 trailing ts2' hs trivial heq
          split at h
          · next ts3 =>
            split at h
            · exact absurd h (by simp)
            · exact ihPL ts3 e1 e ts2 (streamOk_cons.mp hs2).2 hi h
          · exact absurd h (by simp)
      · next op =>
        split at h
        · split at h
          · exact absurd h (by simp)
          · next child ts2' heq =>
            obtain ⟨hc, hs2⟩ := ihRBE ts1 none child ts2' hs trivial heq
            exact ihPL ts2' _ e ts2 hs2 ⟨Inv_mk_unary op child hc.1, rfl⟩ h
        · exact absurd h (by simp)
      · next name =>
        split at h
        · split at h
          · exact absurd h (by simp)
          · next e1 ts2' heq =>
            obtain ⟨hf, hs2⟩ := ihRFC _ name e1 ts2' hs heq
            exact ihPL ts2' e1 e ts2 hs2 hf h
        · exact ihPL ts1 _ e ts2 hs ⟨Inv_leaf_litId name, rfl⟩ h
      · next r2 => exact ihPL ts1 _ e ts2 hs ⟨Inv_leaf_litReal r2, rfl⟩ h
      · next s2 => exact ihPL ts1 _ e ts2 hs ⟨Inv_leaf_litString s2, rfl⟩ h
      · exact absurd h (by simp)
    -- postfixLoop
    · intro ts lhs e ts2 hs hl h
      simp only [postfixLoop] at h
      split at h
      · next ts1 =>
        have hs1 := (streamOk_cons.mp hs).2
        split at h
        · next ts2' =>
          have hs2 := (streamOk_cons.mp hs1).2
          exact ihPL ts2' _ e ts2 hs2
            ⟨Inv_mk_index lhs [] hl.1 (by simp), rfl⟩ h
        · split at h
          · exact absurd h (by simp)
          · next dims ts2' heq =>
            obtain ⟨hd, hs2⟩ := ihRID ts1 [] dims ts2' hs1 (by simp) heq
            exact ihPL ts2' _ e ts2 hs2 ⟨Inv_mk_index lhs dims hl.1 hd, rfl⟩ h
      · next ts1 =>
        have hs1 := (streamOk_cons.mp hs).2
        split at h
        · next id ts2' =>
          have hs2 := (streamOk_cons.mp hs1).2
          exact ihPL ts2' _ e ts2 hs2 ⟨Inv_mk_deref lhs id hl.1, rfl⟩ h
        · exact absurd h (by simp)
        · exact absurd h (by simp)
      · simp only [Except.ok.injEq, Prod.mk.injEq] at h
        obtain ⟨rfl, rfl⟩ := h
        exact ⟨hl, hs⟩
    -- readIndexDims
    · intro ts acc ds ts2 hs hacc h
      simp only [readIndexDims] at h
      split at h
      · exact absurd h (by simp)
      · exact absurd h (by simp)
      · next dim ts1 heq =>
        obtain ⟨hd, hs1⟩ := ihRBT ts none false 0 dim none ts1 hs trivial heq
        have haccd : ∀ x ∈ acc ++ [dim], InvN x := by
          intro x hx
          rcases List.mem_append.mp hx with hx | hx
          · exact hacc x hx
          · simp only [List.mem_singleton] at hx
            subst hx
            exact hd
        split at h
        · next ts2' =>
          simp only [Except.ok.injEq, Prod.mk.injEq] at h
          obtain ⟨rfl, rfl⟩ := h
          exact ⟨haccd, (streamOk_cons.mp hs1).2⟩
        · next ts2' =>
          have hs2 := (streamOk_cons.mp hs1).2
          split at h
          · next ts3 =>
            simp only [Except.ok.injEq, Prod.mk.injEq] at h
            obtain ⟨rfl, rfl⟩ := h
            exact ⟨haccd, (streamOk_cons.mp hs2).2⟩
          · exact ihRID _ _ ds ts2 hs2 haccd h
        · exact absurd h (by simp)
        · exact absurd h (by simp)
    -- readFunctionCall
    · intro ts n e ts2 hs h
      simp only [readFunctionCall] at h
      split at h
      · next ts1 =>
        have hs1 := (streamOk_cons.mp hs).2
        split at h
        · next ts2' =>
          simp only [Except.ok.injEq, Prod.mk.injEq] at h
          obtain ⟨rfl, rfl⟩ := h
          exact ⟨⟨Inv_mk_function n [] (by simp), rfl⟩, (streamOk_cons.mp hs1).2⟩
        · split at h
          · exact absurd h (by simp)
          · next params ts2' heq =>
            obtain ⟨hp, hs2⟩ := ihRP ts1 [] params ts2' hs1 (by simp) heq
            simp only [Except.ok.injEq, Prod.mk.injEq] at h
            obtain ⟨rfl, rfl⟩ := h
            exact ⟨⟨Inv_mk_function n params fun x hx => (hp x hx).1, rfl⟩, hs2⟩
      · exact absurd h (by simp)
      · exact absurd h (by simp)
    -- readParams
    · intro ts acc ps ts2 hs hacc h
      simp only [readParams] at h
      split at h
      · exact absurd h (by simp)
      · exact absurd h (by simp)
      · next param ts1 heq =>
        obtain ⟨hp, hs1⟩ := ihRBT ts none false 0 param none ts1 hs trivial heq
        have haccd : ∀ x ∈ acc ++ [param], InvN x := by
          intro x hx
          rcases List.mem_append.mp hx with hx | hx
          · exact hacc x hx
          · simp only [List.mem_singleton] at hx
            subst hx
            exact hp
        split at h
        · next ts2' =>
          simp only [Except.ok.injEq, Prod.mk.injEq] at h
          obtain ⟨rfl, rfl⟩ := h
          exact ⟨haccd, (streamOk_cons.mp hs1).2⟩
        · next ts2' =>
          have hs2 := (streamOk_cons.mp hs1).2
          split at h
          · next ts3 =>
            simp only [Except.ok.injEq, Prod.mk.injEq] at h
            obtain ⟨rfl, rfl⟩ := h
            exact ⟨haccd, (streamOk_cons.mp hs2).2⟩
          · exact ihRP _ _ ps ts2 hs2 haccd h
        · exact absurd h (by simp)
        · exact absurd h (by simp)

/-- The top-level loop of `AST::new` preserves the structural invariants and
never stores a `Nop` in the expression list. -/
theorem parseAll_inv :
    ∀ fuel ts acc es, streamOk ts → (∀ x ∈ acc, Inv x ∧ x.isNop = false) →
      parseAll fuel ts acc = .ok es → ∀ x ∈ es, Inv x ∧ x.isNop = false := by
  intro fuel
  induction fuel with
  | zero =>
    intro ts acc es hs hacc h
    simp [parseAll] at h
  | succ fuel ih =>
    intro ts acc es hs hacc h
    simp only [parseAll] at h
    split at h
    · exact absurd h (by simp)
    · simp only [Except.ok.injEq] at h
      subst h
      exact hacc
    · next e1 ts1 heq =>
      obtain ⟨hIfun, hs1⟩ := (inv_spec fuel).1 ts (some e1, ts1) hs heq
      split at h
      · exact ih ts1 acc es hs1 hacc h
      · next hnop =>
        refine ih ts1 (acc ++ [e1]) es hs1 ?_ h
        intro x hx
        rcases List.mem_append.mp hx with hx | hx
        · exact hacc x hx
        · simp only [List.mem_singleton] at hx
          subst hx
          exact ⟨hIfun _ rfl, by simpa using hnop⟩

/-- `AST::new` over a pseudo-operator-free token list yields only
invariant-satisfying, non-`Nop` top-level expressions. -/
theorem parse_inv (ts : List Token) (es : List Expr) (hs : streamOk ts)
    (h : parse ts = .ok es) : ∀ x ∈ es, Inv x ∧ x.isNop = false :=
  parseAll_inv (ASTfuel ts) ts [] es hs (by simp) h

theorem keywordToken_tokOk (w : String) (t : Token) (h : keywordToken w = some t) :
    tokOk t = true := by
  unfold keywordToken at h
  cases hf : keywordTable.find? (fun p => p.1 == w) with
  | none =>
    rw [hf] at h
    exact absurd h (by simp [Option.map])
  | some a =>
    rw [hf] at h
    simp only [Option.map] at h
    injection h with h2
    subst h2
    have hm := List.mem_of_find?_eq_some hf
    fin_cases hm <;> rfl

theorem identOrKeyword_tokOk (w : String) : tokOk (identOrKeyword w) = true := by
  unfold identOrKeyword
  cases hk : keywordToken w with
  | none => rfl
  | some t => simpa using keywordToken_tokOk w t hk

theorem lexCons_ok {t : Token} {r : Except String (List Token)} {ts : List Token}
    (h : lexCons t r = .ok ts) : ∃ ts2, r = .ok ts2 ∧ ts = t :: ts2 := by
  cases r with
  | error e => simp [lexCons] at h
  | ok ts2 =>
    simp only [lexCons, Except.ok.injEq] at h
    exact ⟨ts2, rfl, h.symm⟩

theorem lex_streamOk : ∀ fuel,
    (∀ cs ts, lexAll fuel cs = .ok ts → streamOk ts) ∧
    (∀ c cs ts, lexSymbol fuel c cs = .ok ts → streamOk ts) := by
  intro fuel
  induction fuel with
  | zero =>
    constructor
    · intro cs ts h
      exact absurd h (by rw [show lexAll 0 cs = Except.error "out of fuel" from rfl]; simp)
    · intro c cs ts h
      exact absurd h (by rw [show lexSymbol 0 c cs = Except.error "out of fuel" from rfl]; simp)
  | succ fuel ih =>
    obtain ⟨ihA, ihS⟩ := ih
    constructor
    · intro cs ts h
      cases cs with
      | nil =>
        rw [show lexAll (fuel+1) ([] : List Char) = Except.ok [] from rfl] at h
        injection h with h2
        subst h2
        exact streamOk_nil
      | cons c rest =>
        simp only [lexAll] at h
        repeat
          first
            | split at h
            | exact ihA _ _ h
            | exact ihS _ _ _ h
            | (obtain ⟨ts2, hrec, rfl⟩ := lexCons_ok h;
               exact streamOk_cons.mpr ⟨identOrKeyword_tokOk _, ihA _ _ hrec⟩)
            | (obtain ⟨ts2, hrec, rfl⟩ := lexCons_ok h;
               exact streamOk_cons.mpr ⟨rfl, ihA _ _ hrec⟩)
            | exact absurd h (by simp)
    · intro c cs ts h
      simp only [lexSymbol] at h
      repeat
        first
          | split at h
          | exact ihA _ _ h
          | (obtain ⟨ts2, hrec, rfl⟩ := lexCons_ok h;
             exact streamOk_cons.mpr ⟨rfl, ihA _ _ hrec⟩)
          | exact absurd h (by simp)

/-- A successfully lexed string yields a token stream free of the
pseudo-operators `Deref` and `Index`. -/
theorem lexString_streamOk (s : String) (ts : List Token)
    (h : lexString s = .ok ts) : streamOk ts :=
  (lex_streamOk (2 * s.data.length + 2)).1 s.data ts h

/-- Every expression of a successfully parsed source string satisfies the
three structural invariants and is not `Nop`. -/
theorem parseString_inv (s : String) (es : List Expr)
    (h : parseString s = .ok es) : ∀ x ∈ es, Inv x ∧ x.isNop = false := by
  unfold parseString at h
  cases hl : lexString s with
  | error e => rw [hl] at h; exact absurd h (by simp)
  | ok ts =>
    rw [hl] at h
    exact parse_inv ts es (lexString_streamOk s ts hl) h

/-- Claim C7: in every successfully parsed source, every `Binary` node whose
operator is `Deref` has a `LiteralIdentifier` right child; and a `.` in
postfix position followed by a non-identifier token is a parse error, as in
`a..=1`. -/
theorem claim_C7 :
    (∀ s es, parseString s = .ok es → ∀ e ∈ es, allNodes derefOk e = true) ∧
    isErr (parseString "a..=1") = true := by
  refine ⟨?_, rfl⟩
  intro s es h e he
  exact ((parseString_inv s es h) e he).1.1

/-- Witness for claim C7 at the source `a = b.c`. -/
theorem claim_C7_witness :
    allNodes derefOk
      (.binary .assign (.literalIdentifier "a")
        (.binary .deref (.literalIdentifier "b")
          (.literalIdentifier "c"))) = true :=
  claim_C7.1 "a = b.c"
    [.binary .assign (.literalIdentifier "a")
      (.binary .deref (.literalIdentifier "b") (.literalIdentifier "c"))]
    rfl _ (by simp)

/-- Claim C3, amended: in every successfully parsed source, every `Binary`
node whose operator is `Index` has a `Group` right child (of any length: the
parser accepts empty brackets and imposes no upper bound on the number of
dimension expressions). -/
theorem claim_C3 :
    ∀ s es, parseString s = .ok es → ∀ e ∈ es, allNodes indexGroupOk e = true := by
  intro s es h e he
  exact ((parseString_inv s es h) e he).1.2.1

/-- Witness for claim C3 at the source `a = b[]`. -/
theorem claim_C3_witness :
    allNodes indexGroupOk
      (.binary .assign (.literalIdentifier "a")
        (.binary .index (.literalIdentifier "b") (.group []))) = true :=
  claim_C3 "a = b[]"
    [.binary .assign (.literalIdentifier "a")
      (.binary .index (.literalIdentifier "b") (.group []))]
    rfl _ (by simp)

/-- Claim C4: in every successfully parsed source, no top-level expression is
`Nop` and no child of any `Group` node is `Nop`. -/
theorem claim_C4 :
    ∀ s es, parseString s = .ok es →
      ∀ e ∈ es, e.isNop = false ∧ allNodes nopOk e = true := by
  intro s es h e he
  exact ⟨((parseString_inv s es h) e he).2, ((parseString_inv s es h) e he).1.2.2⟩

/-- Witness for claim C4 at the source `;a = 1;{b = 2;;}`. -/
theorem claim_C4_witness :
    Expr.isNop (.binary .assign (.literalIdentifier "a") (.literalReal "1")) = false ∧
    allNodes nopOk
      (.group [.binary .assign (.literalIdentifier "b") (.literalReal "2")]) = true :=
  ⟨(claim_C4 ";a = 1;{b = 2;;}"
      [.binary .assign (.literalIdentifier "a") (.literalReal "1"),
       .group [.binary .assign (.literalIdentifier "b") (.literalReal "2")]]
      rfl _ (by simp)).1,
   (claim_C4 ";a = 1;{b = 2;;}"
      [.binary .assign (.literalIdentifier "a") (.literalReal "1"),
       .group [.binary .assign (.literalIdentifier "b") (.literalReal "2")]]
      rfl _ (by simp)).2⟩

/-- A ranked operator is never `Assign`. -/
theorem ranked_noAssign (op : Operator) (p : Nat)
    (hp : getOpPrecedence op = some p) (l r : Expr) :
    noAssignNode (.binary op l r) = true := by
  cases op <;> simp_all [getOpPrecedence, noAssignNode]

theorem noAssign_spec : ∀ fuel,
    (∀ ts ft lp e op ts2, readBinaryTree fuel ts ft false lp = .ok (e, op, ts2) →
        allNodes noAssignNode e = true) ∧
    (∀ ts lhs op lp e op2 ts2, allNodes noAssignNode lhs = true →
        binaryLoop fuel ts lhs op false lp = .ok (e, op2, ts2) →
        allNodes noAssignNode e = true) ∧
    (∀ ts ft e ts2, readBtreeExpression fuel ts ft = .ok (e, ts2) →
        allNodes noAssignNode e = true) ∧
    (∀ ts t e ts2, readBtreeAtom fuel ts t = .ok (e, ts2) →
        allNodes noAssignNode e = true) ∧
    (∀ ts lhs e ts2, allNodes noAssignNode lhs = true →
        postfixLoop fuel ts lhs = .ok (e, ts2) → allNodes noAssignNode e = true) ∧
    (∀ ts acc ds ts2, (∀ x ∈ acc, allNodes noAssignNode x = true) →
        readIndexDims fuel ts acc = .ok (ds, ts2) →
        ∀ x ∈ ds, allNodes noAssignNode x = true) ∧
    (∀ ts n e ts2, readFunctionCall fuel ts n = .ok (e, ts2) →
        allNodes noAssignNode e = true) ∧
    (∀ ts acc ps ts2, (∀ x ∈ acc, allNodes noAssignNode x = true) →
        readParams fuel ts acc = .ok (ps, ts2) →
        ∀ x ∈ ps, allNodes noAssignNode x = true) := by
  intro fuel
  induction fuel with
  | zero =>
    refine ⟨?_, ?_, ?_, ?_, ?_, ?_, ?_, ?_⟩ <;> intros <;>
      simp_all [readBinaryTree, binaryLoop, readBtreeExpression, readBtreeAtom,
        postfixLoop, readIndexDims, readFunctionCall, readParams]
  | succ fuel ih =>
    obtain ⟨ihRBT, ihBL, ihRBE, ihRBA, ihPL, ihRID, ihRFC, ihRP⟩ := ih
    refine ⟨?_, ?_, ?_, ?_, ?_, ?_, ?_, ?_⟩
    -- readBinaryTree
    · intro ts ft lp e op ts2 h
      simp only [readBinaryTree] at h
      split at h
      · exact absurd h (by simp)
      · next lhs ts1 heq =>
        have hl := ihRBE ts ft lhs ts1 heq
        split at h
        · exact ihBL _ lhs _ lp e op ts2 hl h
        · split at h
          · exact absurd h (by simp)
          · simp only [Except.ok.injEq, Prod.mk.injEq] at h
            obtain ⟨rfl, rfl, rfl⟩ := h
            exact hl
    -- binaryLoop
    · intro ts lhs op lp e op2 ts2 hl h
      simp only [binaryLoop] at h
      split at h
      · next precedence heq =>
        split at h
        · exact absurd h (by simp)
        · split at h
          · simp only [Except.ok.injEq, Prod.mk.injEq] at h
            obtain ⟨rfl, rfl, rfl⟩ := h
            exact hl
          · split at h
            · exact absurd h (by simp)
            · next rhs nextOp ts1 heq2 =>
              have hr := ihRBT ts none (precedence+1) rhs (some nextOp) ts1 heq2
              have hbin : allNodes noAssignNode (.binary op lhs rhs) = true :=
                bool_and3 (ranked_noAssign op precedence heq lhs rhs) hl hr
              split at h
              · next nextPrec heq3 =>
                split at h
                · simp only [Except.ok.injEq, Prod.mk.injEq] at h
                  obtain ⟨rfl, rfl, rfl⟩ := h
                  exact hbin
                · exact ihBL ts1 _ nextOp lp e op2 ts2 hbin h
              · exact absurd h (by simp)
            · next rhs ts1 heq2 =>
              have hr := ihRBT ts none (precedence+1) rhs none ts1 heq2
              simp only [Except.ok.injEq, Prod.mk.injEq] at h
              obtain ⟨rfl, rfl, rfl⟩ := h
              exact bool_and3 (ranked_noAssign op precedence heq lhs rhs) hl hr
      · next heq =>
        split at h
        · exact absurd h (by simp)
        · next hcond => simp at hcond
    -- readBtreeExpression
    · intro ts ft e ts2 h
      simp only [readBtreeExpression] at h
      split at h
      · next t => exact ihRBA ts t e ts2 h
      · split at h
        · next t r2 => exact ihRBA r2 t e ts2 h
        · exact absurd h (by simp)
    -- readBtreeAtom
    · intro ts1 t e ts2 h
      simp only [readBtreeAtom] at h
      split at h
      · split at h
        · exact absurd h (by simp)
        · next e1 trailing ts2' heq =>
          have hi := ihRBT ts1 none 0 e1 trailing ts2' heq
          split at h
          · next ts3 =>
            split at h
            · exact absurd h (by simp)
            · exact ihPL ts3 e1 e ts2 hi h
          · exact absurd h (by simp)
      · next op =>
        split at h
        · split at h
          · exact absurd h (by simp)
          · next child ts2' heq =>
            have hc := ihRBE ts1 none child ts2' heq
            exact ihPL ts2' (.unary op child) e ts2 (bool_and2 rfl hc) h
        · exact absurd h (by simp)
      · next name =>
        split at h
        · split at h
          · exact absurd h (by simp)
          · next e1 ts2' heq =>
            have hf := ihRFC _ name e1 ts2' heq
            exact ihPL ts2' e1 e ts2 hf h
        · exact ihPL ts1 (.literalIdentifier name) e ts2 rfl h
      · next r2 => exact ihPL ts1 (.literalReal r2) e ts2 rfl h
      · next s2 => exact ihPL ts1 (.literalString s2) e ts2 rfl h
      · exact absurd h (by simp)
    -- postfixLoop
    · intro ts lhs e ts2 hl h
      simp only [postfixLoop] at h
      split at h
      · next ts1 =>
        split at h
        · next ts2' =>
          exact ihPL ts2' (.binary .index lhs (.group [])) e ts2
            (bool_and3 rfl hl (bool_and2 rfl rfl)) h
        · split at h
          · exact absurd h (by simp)
          · next dims ts2' heq =>
            have hd := ihRID ts1 [] dims ts2' (by simp) heq
            exact ihPL ts2' (.binary .index lhs (.group dims)) e ts2
              (bool_and3 rfl hl
                (bool_and2 rfl ((allNodesList_iff _ _).mpr hd))) h
      · next ts1 =>
        split at h
        · next id ts2' =>
          exact ihPL ts2' (.binary .deref lhs (.literalIdentifier id)) e ts2
            (bool_and3 rfl hl rfl) h
        · exact absurd h (by simp)
        · exact absurd h (by simp)
      · simp only [Except.ok.injEq, Prod.mk.injEq] at h
        obtain ⟨rfl, rfl⟩ := h
        exact hl
    -- readIndexDims
    · intro ts acc ds ts2 hacc h
      simp only [readIndexDims] at h
      split at h
      · exact absurd h (by simp)
      · exact absurd h (by simp)
      · next dim ts1 heq =>
        have hd := ihRBT ts none 0 dim none ts1 heq
        have haccd : ∀ x ∈ acc ++ [dim], allNodes noAssignNode x = true := by
          intro x hx
          rcases List.mem_append.mp hx with hx | hx
          · exact hacc x hx
          · simp only [List.mem_singleton] at hx
            subst hx
            exact hd
        split at h
        · next ts2' =>
          simp only [Except.ok.injEq, Prod.mk.injEq] at h
          obtain ⟨rfl, rfl⟩ := h
          exact haccd
        · next ts2' =>
          split at h
          · next ts3 =>
            simp only [Except.ok.injEq, Prod.mk.injEq] at h
            obtain ⟨rfl, rfl⟩ := h
            exact haccd
          · exact ihRID _ _ ds ts2 haccd h
        · exact absurd h (by simp)
        · exact absurd h (by simp)
    -- readFunctionCall
    · intro ts n e ts2 h
      simp only [readFunctionCall] at h
      split at h
      · next ts1 =>
        split at h
        · next ts2' =>
          simp only [Except.ok.injEq, Prod.mk.injEq] at h
          obtain ⟨rfl, rfl⟩ := h
          exact bool_and2 rfl ((allNodesList_iff _ _).mpr (by simp))
        · split at h
          · exact absurd h (by simp)
          · next params ts2' heq =>
            have hp := ihRP ts1 [] params ts2' (by simp) heq
            simp only [Except.ok.injEq, Prod.mk.injEq] at h
            obtain ⟨rfl, rfl⟩ := h
            exact bool_and2 rfl ((allNodesList_iff _ _).mpr hp)
      · exact absurd h (by simp)
      · exact absurd h (by simp)
    -- readParams
    · intro ts acc ps ts2 hacc h
      simp only [readParams] at h
      split at h
      · exact absurd h (by simp)
      · exact absurd h (by simp)
      · next param ts1 heq =>
        have hp := ihRBT ts none 0 param none ts1 heq
        have haccd : ∀ x ∈ acc ++ [param], allNodes noAssignNode x = true := by
          intro x hx
          rcases List.mem_append.mp hx with hx | hx
          · exact hacc x hx
          · simp only [List.mem_singleton] at hx
            subst hx
            exact hp
        split at h
        · next ts2' =>
          simp only [Except.ok.injEq, Prod.mk.injEq] at h
          obtain ⟨rfl, rfl⟩ := h
          exact haccd
        · next ts2' =>
          split at h
          · next ts3 =>
            simp only [Except.ok.injEq, Prod.mk.injEq] at h
            obtain ⟨rfl, rfl⟩ := h
            exact haccd
          · exact ihRP _ _ ps ts2 haccd h
        · exact absurd h (by simp)
        · exact absurd h (by simp)

/-- Claim C2: an `=` token consumed while `expect_assignment` is false is
reinterpreted as the equality operator: `a = b = c` parses to a single
top-level `Assign` node whose right child is `Equal(b, c)`; an `=` inside a
`(...)` sub-expression or a `[...]` index dimension parses as `Equal`; and in
general no expression produced by `read_binary_tree` with
`expect_assignment = false` contains an `Assign` node anywhere. -/
theorem claim_C2 :
    parseString "a = b = c" = .ok
      [.binary .assign (.literalIdentifier "a")
        (.binary .equal (.literalIdentifier "b") (.literalIdentifier "c"))] ∧
    parseString "a = (b = c)" = .ok
      [.binary .assign (.literalIdentifier "a")
        (.binary .equal (.literalIdentifier "b") (.literalIdentifier "c"))] ∧
    parseString "a[b = c] = d" = .ok
      [.binary .assign
        (.binary .index (.literalIdentifier "a")
          (.group [.binary .equal (.literalIdentifier "b")
            (.literalIdentifier "c")]))
        (.literalIdentifier "d")] ∧
    (∀ fuel ts ft lp e op ts2,
        readBinaryTree fuel ts ft false lp = .ok (e, op, ts2) →
        allNodes noAssignNode e = true) :=
  ⟨rfl, rfl, rfl, fun fuel => (noAssign_spec fuel).1⟩

/-- Witness for claim C2: the sub-expression `b = c` parsed with
`expect_assignment = false` becomes `Equal` and contains no `Assign`. -/
theorem claim_C2_witness :
    allNodes noAssignNode
      (.binary .equal (.literalIdentifier "b") (.literalIdentifier "c")) = true :=
  claim_C2.2.2.2 8
    [Token.identifier "b", Token.operator .assign, Token.identifier "c"]
    none 0 (.binary .equal (.literalIdentifier "b") (.literalIdentifier "c"))
    none [] rfl

/-- The empty string is a left identity of string append. -/
theorem string_empty_append (s : String) : "" ++ s = s := by
  apply String.ext
  simp [String.data_append]

theorem renderCommaSep_eq : ∀ es : List Expr,
    renderCommaSep es = catSep ((es.filter (fun e => !e.isNop)).map render) := by
  intro es
  induction es with
  | nil => rfl
  | cons e es ih =>
    cases hnop : e.isNop with
    | true =>
      simp only [renderCommaSep, hnop, if_pos, List.filter_cons, Bool.not_true,
        ih, string_empty_append]
      simp [string_empty_append]
    | false =>
      simp only [renderCommaSep, hnop, List.filter_cons, Bool.not_false, ih]
      simp only [if_neg, ite_false, List.map_cons, catSep]
      apply String.ext
      simp [String.data_append]

theorem catSep_nonempty : ∀ (s : String) (r : List String),
    catSep (s :: r) = joinCommaSep (s :: r) ++ ", " := by
  intro s r
  induction r generalizing s with
  | nil =>
    apply String.ext
    simp [catSep, joinCommaSep, String.data_append]
  | cons t r ih =>
    show s ++ (", " ++ catSep (t :: r)) = joinCommaSep (s :: t :: r) ++ ", "
    rw [ih]
    apply String.ext
    simp only [joinCommaSep, String.data_append, List.append_assoc]

theorem trimCommaSpace_append (Y : String)
    (hY : Y = "" ∨ lastCharOk Y = true) :
    trimCommaSpace (Y ++ ", ") = Y := by
  rcases hY with rfl | hY
  · rfl
  · apply String.ext
    show (((Y ++ ", ").data.reverse.dropWhile fun c => c = ' ' || c = ',').reverse) = Y.data
    rw [String.data_append]
    rw [show (", " : String).data = [',', ' '] from rfl]
    rw [List.reverse_append]
    rw [show ([',', ' '] : List Char).reverse = [' ', ','] from rfl]
    unfold lastCharOk at hY
    cases hrev : Y.data.reverse with
    | nil =>
      rw [List.reverse_eq_nil_iff] at hrev
      rw [hrev] at hY
      simp at hY
    | cons c t =>
      have hlast : Y.data.getLast? = some c := by
        rw [← List.head?_reverse, hrev]
        rfl
      rw [hlast] at hY
      simp only [Bool.not_eq_true'] at hY
      show (List.dropWhile (fun c => c = ' ' || c = ',') ([' ', ','] ++ c :: t)).reverse = Y.data
      rw [show ([' ', ','] ++ c :: t) = ' ' :: ',' :: c :: t from rfl]
      rw [List.dropWhile_cons_of_pos (by decide), List.dropWhile_cons_of_pos (by decide)]
      rw [List.dropWhile_cons_of_neg (by simp [hY])]
      rw [← hrev, List.reverse_reverse]

theorem lastCharOk_append (a b : String) (hb : lastCharOk b = true) :
    lastCharOk (a ++ b) = true := by
  unfold lastCharOk at *
  have hne : b.data ≠ [] := by
    intro hcon
    rw [hcon] at hb
    simp at hb
  rw [String.data_append, List.getLast?_append_of_ne_nil _ hne]
  exact hb

theorem join_lastCharOk : ∀ (s : String) (r : List String),
    lastCharOk s = true → (∀ x ∈ r, lastCharOk x = true) →
    lastCharOk (joinCommaSep (s :: r)) = true := by
  intro s r
  induction r generalizing s with
  | nil => intro hs _; exact hs
  | cons t r ih =>
    intro hs hr
    show lastCharOk (s ++ ", " ++ joinCommaSep (t :: r)) = true
    exact lastCharOk_append _ _ (ih t (hr t (by simp)) fun x hx => hr x (by simp [hx]))

theorem claim_C9 :
    (∀ children : List Expr,
      (∀ e ∈ children.filter (fun e => !e.isNop), lastCharOk (render e) = true) →
      render (.group children)
        = "<" ++ joinCommaSep ((children.filter (fun e => !e.isNop)).map render)
            ++ ">") ∧
    render (.group []) = "<>" ∧
    render (.group [.nop, .nop]) = "<>" := by
  refine ⟨?_, rfl, rfl⟩
  intro children hcl
  have h1 : render (.group children)
      = "<" ++ trimCommaSpace (renderCommaSep children) ++ ">" := rfl
  rw [h1, renderCommaSep_eq]
  cases hl : (children.filter (fun e => !e.isNop)).map render with
  | nil => rfl
  | cons s r =>
    rw [catSep_nonempty, trimCommaSpace_append]
    right
    have hmem : ∀ x ∈ s :: r, lastCharOk x = true := by
      intro x hx
      have hx2 : x ∈ (children.filter (fun e => !e.isNop)).map render := by
        rw [hl]; exact hx
      obtain ⟨e, he, rfl⟩ := List.mem_map.mp hx2
      exact hcl e he
    exact join_lastCharOk s r (hmem s (by simp)) fun x hx => hmem x (by simp [hx])

/-- Witness for claim C9 at a Group with two identifier children and a `Nop`
in between. -/
theorem claim_C9_witness :
    render (.group [.literalIdentifier "a", .nop, .literalIdentifier "b"])
      = "<" ++ joinCommaSep
          (([Expr.literalIdentifier "a", .nop, .literalIdentifier "b"].filter
            (fun e => !e.isNop)).map render) ++ ">" :=
  claim_C9.1 [.literalIdentifier "a", .nop, .literalIdentifier "b"] (by decide)

end GM8
